import Mathlib

/-!
Verification of the wordplay retrieval engine (normalised words, letter
frequency vectors, prime-product anagram numbers, the 26-ary trie with its
worklist-based search iterator, and the dictionary facade with its predicate
combinators).

Shallow embedding conventions:
* `NormalizedChar` (a 26-value `repr(u8)` enum in the source) is `Fin 26`;
  `NormalizedWord` (a `Vec<NormalizedChar>`) is `List NormalizedChar`.
* The fixed 26-slot `CharMap<T>` array is a `List` of length 26, read with
  `List.getD` and written with `List.set`; `CharMap::iter` (ascending letter
  order over all 26 slots) is `Trie.childList`.
* Machine integers are `Nat` with the overflow checks made explicit:
  `u128::checked_mul` is an `if _ < 2 ^ 128` guard, and the `u8` counter
  increment in `CharFreq` (which aborts on overflow under checked arithmetic)
  is an `if _ < 256` guard returning `Option`.
* Fallible operations (`TryFrom`, `expect`) return `Option`; `none` stands
  for the error/panic outcome.
* The lazy `TrieIter` is driven to exhaustion: `TrieIter.runF` performs the
  `next()` loop on the two worklists with an explicit fuel that is fixed, in
  `Trie.iter_search`, to an amount proven sufficient below.
-/

/-- The 26 canonical letters (`NormalizedChar`, a contiguous `repr(u8)` enum
`A = 0 .. Z = 25` in `normalized_word.rs`). -/
abbrev NormalizedChar := Fin 26

/-- An ordered sequence of canonical letters (`NormalizedWord`). -/
abbrev NormalizedWord := List NormalizedChar

/-- `NormalizedChar::from_char`: ASCII letters map case-insensitively onto
`A..Z`; a fixed table of Latin-1 accented variants folds to the base letter;
everything else is dropped (`None`). The ASCII branch compares the uppercased
character against the numeric range 65..90, exactly as `('A'..='Z').contains`
does on code points. -/
def NormalizedChar.from_char (ch : Char) : Option NormalizedChar :=
  let u := ch.toUpper
  if h : 65 ≤ u.toNat ∧ u.toNat ≤ 90 then
    some ⟨u.toNat - 65, by omega⟩
  else
    match ch with
    | 'á' | 'Á' | 'â' | 'Â' | 'ä' | 'Ä' | 'à' | 'À' | 'ã' | 'Ã' | 'å' | 'Å' => some ⟨0, by omega⟩
    | 'ç' | 'Ç' => some ⟨2, by omega⟩
    | 'é' | 'É' | 'ê' | 'Ê' | 'ë' | 'Ë' | 'è' | 'È' => some ⟨4, by omega⟩
    | 'í' | 'Í' | 'î' | 'Î' | 'ï' | 'Ï' | 'ì' | 'Ì' => some ⟨8, by omega⟩
    | 'ñ' | 'Ñ' => some ⟨13, by omega⟩
    | 'ó' | 'Ó' | 'ô' | 'Ô' | 'ö' | 'Ö' | 'ò' | 'Ò' | 'õ' | 'Õ' => some ⟨14, by omega⟩
    | 'ú' | 'Ú' | 'û' | 'Û' | 'ü' | 'Ü' | 'ù' | 'Ù' => some ⟨20, by omega⟩
    | 'ý' | 'Ý' => some ⟨24, by omega⟩
    | _ => none

/-- `NormalizedWord::from_str_safe`: keep the mapped letters, drop the rest. -/
def NormalizedWord.from_str_safe (s : String) : NormalizedWord :=
  s.data.filterMap NormalizedChar.from_char

/-- The per-letter prime table `PRIMES_MAP` of `anagram_number.rs` (index 0 is
A, index 25 is Z). -/
def primesList : List Nat :=
  [5, 71, 41, 29, 2, 47, 61, 23, 11, 97, 79, 31, 43, 13, 7, 67, 89, 19, 17, 3, 37, 73, 59, 83,
    53, 101]

/-- `PRIMES_MAP.get(c)`. -/
def primeOf (c : NormalizedChar) : Nat := primesList.getD c.val 0

/-- The four-way result of `AnagramNumber::compare`. -/
inductive AnagramComparison where
  | Exact
  | Unrelated
  | Subset
  | Superset
deriving DecidableEq

/-- `AnagramNumber::compare` on the underlying `u128` values: equality, then
`a < b && b % a == 0 ⇒ Superset`, then `a > b && a % b == 0 ⇒ Subset`, else
`Unrelated`. -/
def AnagramNumber.compare (a b : Nat) : AnagramComparison :=
  if a = b then .Exact
  else if a < b ∧ b % a = 0 then .Superset
  else if b < a ∧ a % b = 0 then .Subset
  else .Unrelated

/-- `TryFrom<&NormalizedWord> for AnagramNumber`: fold `checked_mul` over the
word's letters starting from 1; `none` is the `AnagramNumberOverflow` error
(`u128::checked_mul` fails exactly when the true product is `≥ 2^128`). -/
def AnagramNumber.tryFrom (w : NormalizedWord) : Option Nat :=
  w.foldlM (fun x c => if x * primeOf c < 2 ^ 128 then some (x * primeOf c) else none) 1

/-- `CharFreq::new_empty`: the all-zero frequency array. -/
def CharFreq.new_empty : List Nat := List.replicate 26 0

/-- `CharFreq::from(word: &AsciiStr)` under checked (debug) `u8` arithmetic:
bytes in the uppercase range 65..90 bump the corresponding counter; the
increment `x + 1` on a `u8` panics when the counter is already 255, modelled
by returning `none`. Other bytes are skipped. -/
def CharFreq.fromAscii (word : List Nat) : Option (List Nat) :=
  word.foldlM
    (fun freqs c8 =>
      if 65 ≤ c8 ∧ c8 ≤ 90 then
        if freqs.getD (c8 - 65) 0 + 1 < 256 then
          some (freqs.set (c8 - 65) (freqs.getD (c8 - 65) 0 + 1))
        else none
      else some freqs)
    CharFreq.new_empty

/-- Modelled from the spec: the Letter-Frequency Vector operation
`fromWord(word)` ("counts each letter"). The revision of `CharFreq::from`
taking a `&NormalizedWord` (the one `Dictionary::insert` calls) is not among
the provided source files; on a normalized word it produces the per-letter
counts, which is also what `CharFreq.fromAscii` computes on the word's ASCII
codes while counters stay below 256. -/
def CharFreq.fromWord (w : NormalizedWord) : List Nat :=
  (List.finRange 26).map (fun c => w.count c)

/-- The private running classification of `CharFreq::compare`
(`CharFreqComparison` in `char_freq.rs`). -/
inductive CharFreqComparison where
  | Same
  | Subset
  | Superset
deriving DecidableEq

/-- The public result of `CharFreq::compare` with its difference vectors. -/
inductive CharFreqComparisonResult where
  | Same
  | Unrelated
  | Subset (diff : List Nat)
  | Superset (diff : List Nat)
deriving DecidableEq

/-- The `for i in 0..26` loop body of `CharFreq::compare`: `comp` is the
running classification, `diff` accumulates the per-index differences in
reverse (equal positions stay 0, exactly like the untouched slots of the
`diff` array in the source); observing a difference against the running
classification returns `Unrelated` immediately. -/
def CharFreq.compareGo :
    List (Nat × Nat) → CharFreqComparison → List Nat → CharFreqComparisonResult
  | [], comp, diff =>
    match comp with
    | .Same => .Same
    | .Subset => .Subset diff.reverse
    | .Superset => .Superset diff.reverse
  | (a, b) :: rest, comp, diff =>
    if a = b then CharFreq.compareGo rest comp (0 :: diff)
    else if a < b then
      match comp with
      | .Superset => .Unrelated
      | _ => CharFreq.compareGo rest .Subset ((b - a) :: diff)
    else
      match comp with
      | .Subset => .Unrelated
      | _ => CharFreq.compareGo rest .Superset ((a - b) :: diff)

/-- `CharFreq::compare`: run the loop over the 26 index positions. -/
def CharFreq.compare (a b : List Nat) : CharFreqComparisonResult :=
  CharFreq.compareGo ((List.range 26).map (fun i => (a.getD i 0, b.getD i 0))) .Same []

/-- The bare classification (constructor) of a `CharFreqComparisonResult`,
with the difference vector forgotten. -/
inductive CharFreqClass where
  | Same
  | Unrelated
  | Subset
  | Superset
deriving DecidableEq

/-- Forget the difference vectors. -/
def CharFreqComparisonResult.toClass : CharFreqComparisonResult → CharFreqClass
  | .Same => .Same
  | .Unrelated => .Unrelated
  | .Subset _ => .Subset
  | .Superset _ => .Superset

/-- The translation between the two components' labels. `AnagramNumber`'s
labels describe the *other* operand (`a.compare(b) = Superset` means b's
letters contain a's), while `CharFreq`'s labels describe *self*
(`a.compare(&b) = Subset` means a's letters are contained in b's), so
`Subset` and `Superset` trade places. -/
def AnagramComparison.toFreqClass : AnagramComparison → CharFreqClass
  | .Exact => .Same
  | .Unrelated => .Unrelated
  | .Subset => .Superset
  | .Superset => .Subset

/-- `CharMatch`: one position of a pattern, a fixed letter or a wildcard. -/
inductive CharMatch where
  | Only (c : NormalizedChar)
  | Any
deriving DecidableEq

/-- `From<char> for CharMatch`: `' '`, `'.'`, `'?'` are wildcards; any other
character must normalise to a letter, and the source `expect`s (panics) when
it does not — modelled by `none`. -/
def CharMatch.fromChar (ch : Char) : Option CharMatch :=
  if ch = ' ' ∨ ch = '.' ∨ ch = '?' then some .Any
  else (NormalizedChar.from_char ch).map CharMatch.Only

/-- `CharMatch::matches`. -/
def CharMatch.matches : CharMatch → NormalizedChar → Bool
  | .Only exp, ch => exp == ch
  | .Any, _ => true

/-- `TriePrefix` of `trie.rs` (named `TriePat` here): the positional match
constraint, one `CharMatch` per pattern position. -/
structure TriePat where
  chars : List CharMatch
deriving DecidableEq

/-- `TriePrefix::get_char_restriction`: past the pattern's own length the
restriction is `Any`. -/
def TriePat.get_char_restriction (p : TriePat) (depth : Nat) : CharMatch :=
  if depth < p.chars.length then p.chars.getD depth .Any else .Any

/-- `TriePrefix::from_pattern`, parsing every character with
`CharMatch::from`; `none` if any character would make the source panic. -/
def TriePat.from_pattern (s : String) : Option TriePat :=
  (s.data.mapM CharMatch.fromChar).map TriePat.mk

/-- `TrieSearch`: a match constraint (`pat`, the source's `prefix` field)
plus an optional maximum depth. -/
structure TrieSearch where
  pat : TriePat
  max_depth : Option Nat
deriving DecidableEq

/-- `TrieSearch::default()`: empty constraint, unbounded depth. -/
instance : Inhabited TrieSearch := ⟨⟨⟨[]⟩, none⟩⟩

/-- `TrieSearch::below_max`: no maximum means always true. -/
def TrieSearch.below_max (s : TrieSearch) (depth : Nat) : Bool :=
  match s.max_depth with
  | none => true
  | some m => depth < m

/-- `TrieSearch::get_char_restriction`. -/
def TrieSearch.get_char_restriction (s : TrieSearch) (depth : Nat) : CharMatch :=
  s.pat.get_char_restriction depth

/-- `TrieSearch::exactly(str)`: parse the pattern and cap the depth at the
pattern's length. -/
def TrieSearch.exactly (s : String) : Option TrieSearch :=
  (TriePat.from_pattern s).map (fun p => ⟨p, some p.chars.length⟩)

/-- The 26-ary trie: 26 optional child slots (a `CharMap<Option<Box<Trie>>>`)
plus the terminal payload list. -/
inductive Trie (T : Type) where
  | node (children : List (Option (Trie T))) (terminals : List T)

/-- Child-slot array of a node. -/
def Trie.children {T : Type} : Trie T → List (Option (Trie T))
  | .node ch _ => ch

/-- Terminal payloads of a node. -/
def Trie.terminals {T : Type} : Trie T → List T
  | .node _ ts => ts

/-- `Trie::empty` / `Default`: 26 empty child slots, no terminals. -/
def Trie.empty {T : Type} : Trie T := .node (List.replicate 26 none) []

mutual
/-- Node count plus terminal count of a trie — the termination measure for
the traversal (each node contributes 1 plus its terminals). -/
def Trie.size {T : Type} : Trie T → Nat
  | .node ch ts => 1 + ts.length + Trie.sizeChildren ch

/-- Summed sizes of the populated child slots. -/
def Trie.sizeChildren {T : Type} : List (Option (Trie T)) → Nat
  | [] => 0
  | none :: rest => Trie.sizeChildren rest
  | some t :: rest => Trie.size t + Trie.sizeChildren rest
end

/-- `Trie::add`: walk/create one child per letter (`get_or_create_mut`), then
append the value to the final node's terminal list. -/
def Trie.add {T : Type} : Trie T → NormalizedWord → T → Trie T
  | .node ch ts, [], v => .node ch (ts ++ [v])
  | .node ch ts, c :: rest, v =>
    .node (ch.set c.val (some (Trie.add ((ch.getD c.val none).getD Trie.empty) rest v))) ts

/-- `Trie::add_string`. -/
def Trie.add_string {T : Type} (t : Trie T) (s : String) (v : T) : Trie T :=
  t.add (NormalizedWord.from_str_safe s) v

/-- `Trie::get`: walk the word's path; an absent child slot aborts with
`none`, otherwise the final node's terminal list is returned. -/
def Trie.get {T : Type} : Trie T → NormalizedWord → Option (List T)
  | .node _ ts, [] => some ts
  | .node ch _, c :: rest =>
    match ch.getD c.val none with
    | none => none
    | some child => Trie.get child rest

/-- Follows the spec's words (for the lookup claim): the node reached by the
word's path, `none` exactly when some node along the path is absent. -/
def Trie.nodeAt {T : Type} : Trie T → NormalizedWord → Option (Trie T)
  | t, [] => some t
  | .node ch _, c :: rest =>
    match ch.getD c.val none with
    | none => none
    | some child => Trie.nodeAt child rest

/-- `CharMap::iter` over a child array: the 26 slots tagged with their
letters, in ascending canonical-letter order. -/
def Trie.childList {T : Type} (ch : List (Option (Trie T))) :
    List (NormalizedChar × Option (Trie T)) :=
  (List.finRange 26).map (fun c => (c, ch.getD c.val none))

/-- The (word, child) pairs produced during `TrieIter::visit` before the
final reversal: the populated children in ascending letter order, each tagged
with the extended word. -/
def Trie.childrenPairs {T : Type} (ch : List (Option (Trie T))) (w : NormalizedWord) :
    List (NormalizedWord × Trie T) :=
  (Trie.childList ch).filterMap (fun p => p.2.map (fun child => (w ++ [p.1], child)))

/-- `TrieIter`: the search descriptor plus the LIFO node worklist (back of
the list is the top) and the FIFO terminal queue (front of the list is the
head), as in `trie.rs`. -/
structure TrieIter (T : Type) where
  search : TrieSearch
  node_queue : List (NormalizedWord × Trie T)
  terminal_queue : List (NormalizedWord × T)

/-- `TrieIter::visit`: at depth `word.len()`, emit the node's terminals when
the pattern's fixed region is fully consumed; when still below the maximum
depth, push the children matching the positional restriction in reverse
letter order onto the node worklist. -/
def TrieIter.visit {T : Type} (it : TrieIter T) (word : NormalizedWord) (node : Trie T) :
    TrieIter T :=
  let depth := word.length
  let patLen := it.search.pat.chars.length
  let it1 :=
    if patLen ≤ depth then
      { it with terminal_queue := it.terminal_queue ++ node.terminals.map (fun t => (word, t)) }
    else it
  if it.search.below_max depth then
    let restriction := it.search.get_char_restriction depth
    let nodes :=
      (((Trie.childList node.children).filter (fun p => restriction.matches p.1)).filterMap
        (fun p => p.2.map (fun child => (word ++ [p.1], child)))).reverse
    { it1 with node_queue := it1.node_queue ++ nodes }
  else it1

/-- The `Iterator::next` loop of `TrieIter`, run to exhaustion with explicit
fuel: drain the terminal queue first; otherwise pop the top of the node
worklist, visit it and retry. Each step consumes one unit of fuel; with the
fuel chosen in `Trie.iter_search` the queues are provably empty before the
fuel runs out. -/
def TrieIter.runF {T : Type} : Nat → TrieIter T → List (NormalizedWord × T)
  | 0, _ => []
  | fuel + 1, it =>
    match it.terminal_queue with
    | x :: rest => x :: TrieIter.runF fuel { it with terminal_queue := rest }
    | [] =>
      match it.node_queue.getLast? with
      | some (word, node) =>
        TrieIter.runF fuel
          (TrieIter.visit { it with node_queue := it.node_queue.dropLast } word node)
      | none => []

/-- Step-count bound for the traversal: every `next` step strictly decreases
this quantity. -/
def TrieIter.size {T : Type} (it : TrieIter T) : Nat :=
  it.terminal_queue.length + 2 * ((it.node_queue.map (fun p => Trie.size p.2)).sum)

/-- `TrieIter::new`: worklist seeded with the empty word at the root. -/
def TrieIter.init {T : Type} (root : Trie T) (search : TrieSearch) : TrieIter T :=
  { search := search, node_queue := [([], root)], terminal_queue := [] }

/-- `Trie::iter_search`: the full (finite) sequence produced by the iterator. -/
def Trie.iter_search {T : Type} (t : Trie T) (s : TrieSearch) : List (NormalizedWord × T) :=
  TrieIter.runF (TrieIter.size (TrieIter.init t s) + 1) (TrieIter.init t s)

/-- `Trie::iter`: an unconstrained search (`Default` descriptor). -/
def Trie.iter {T : Type} (t : Trie T) : List (NormalizedWord × T) :=
  t.iter_search default

/-- Reference enumeration for the unconstrained traversal: this node's
terminals first (tagged with the accumulated word), then the children's
enumerations in ascending letter order. -/
def Trie.dfs {T : Type} : Trie T → NormalizedWord → List (NormalizedWord × T)
  | .node ch ts, w =>
    ts.map (fun v => (w, v)) ++
      ((List.finRange 26).map (fun c =>
        match h : ch.getD c.val none with
        | none => []
        | some child => Trie.dfs child (w ++ [c]))).flatten
termination_by t _ => Trie.size t
decreasing_by
  have key : ∀ (l : List (Option (Trie T))) (i : Nat),
      l.getD i none = some child → Trie.size child ≤ Trie.sizeChildren l := by
    intro l
    induction l with
    | nil => intro i hi; simp [List.getD] at hi
    | cons x rest ih =>
      intro i hi
      cases i with
      | zero =>
        simp [List.getD] at hi
        subst hi
        simp [Trie.sizeChildren]
      | succ j =>
        have hj : rest.getD j none = some child := by simpa [List.getD] using hi
        have := ih j hj
        cases x <;> simp [Trie.sizeChildren] <;> omega
  have := key ch c.val h
  simp [Trie.size]
  omega

/-- Non-strict lexicographic order on normalized words (a proper prefix comes
first, ties broken by the first differing letter). -/
def wordLe (a b : NormalizedWord) : Prop := a = b ∨ List.Lex (· < ·) a b

/-- A node that is not empty: it has a terminal or a populated child slot. -/
def Trie.isNonEmptyNode {T : Type} : Trie T → Bool
  | .node ch ts => !ts.isEmpty || ch.any (fun o => o.isSome)

/-- Every node strictly below this one has a terminal or a populated child. -/
def Trie.noEmptyDescendants {T : Type} : Trie T → Bool
  | .node ch _ =>
    ch.attach.all (fun x =>
      match x with
      | ⟨none, _⟩ => true
      | ⟨some c, hc⟩ => c.isNonEmptyNode && Trie.noEmptyDescendants c)
decreasing_by
  have h1 : sizeOf (some c) < sizeOf ch := List.sizeOf_lt_of_mem hc
  simp at h1
  simp
  omega

/-- Structural well-formedness used in the no-empty-leaf invariant proof:
every node's child array has exactly the 26 slots of a `CharMap` (which holds
by construction for every trie built from `Trie::empty` by `Trie::add`). -/
def Trie.childrenFull {T : Type} : Trie T → Bool
  | .node ch _ =>
    (ch.length == 26) &&
      ch.attach.all (fun x =>
        match x with
        | ⟨none, _⟩ => true
        | ⟨some c, hc⟩ => Trie.childrenFull c)
decreasing_by
  have h1 : sizeOf (some c) < sizeOf ch := List.sizeOf_lt_of_mem hc
  simp at h1
  simp
  omega

/-- `DictEntry` of `dictionary.rs`: precomputed frequency vector, optional
anagram number (`None` after overflow), original spelling. -/
structure DictEntry where
  char_freq : List Nat
  anag_num : Option Nat
  original : String
deriving DecidableEq

/-- `DictIterItem`: a search hit (normalized spelling plus entry data). -/
structure DictIterItem where
  normalized : NormalizedWord
  char_freq : List Nat
  anag_num : Option Nat
  original : String
deriving DecidableEq

/-- `From<(NormalizedWord, &DictEntry)> for DictIterItem`. -/
def DictIterItem.ofPair (p : NormalizedWord × DictEntry) : DictIterItem :=
  { normalized := p.1, char_freq := p.2.char_freq, anag_num := p.2.anag_num,
    original := p.2.original }

/-- `WordPredicate`: the boolean combinator tree over anagram relations. -/
inductive WordPredicate where
  | AnagramOf (n : Nat)
  | SubanagramOf (n : Nat)
  | SuperanagramOf (n : Nat)
  | All (ps : List WordPredicate)
  | Any (ps : List WordPredicate)
  | None

/-- `WordPredicate::matches`: note the `map_or` defaults — an entry with an
absent anagram number fails `AnagramOf` (`map_or(false, ..)`) but passes
`SubanagramOf` and `SuperanagramOf` (`map_or(true, ..)`). -/
def WordPredicate.matches : WordPredicate → DictIterItem → Bool
  | .AnagramOf anag, entry =>
    match entry.anag_num with
    | Option.none => false
    | Option.some x => AnagramNumber.compare anag x == .Exact
  | .SubanagramOf anag, entry =>
    match entry.anag_num with
    | Option.none => true
    | Option.some x => AnagramNumber.compare anag x == .Subset
  | .SuperanagramOf anag, entry =>
    match entry.anag_num with
    | Option.none => true
    | Option.some x => AnagramNumber.compare anag x == .Superset
  | .All ps, entry => ps.attach.all (fun x => WordPredicate.matches x.1 entry)
  | .Any ps, entry => ps.attach.any (fun x => WordPredicate.matches x.1 entry)
  | .None, _ => true
decreasing_by
  all_goals
    have h1 : sizeOf x.1 < sizeOf ps := List.sizeOf_lt_of_mem x.2
    simp
    omega

/-- `Default for WordPredicate` is `None`. -/
instance : Inhabited WordPredicate := ⟨.None⟩

/-- `DictSearch`: optional trie search plus a predicate. -/
structure DictSearch where
  trie_search : Option TrieSearch
  predicate : WordPredicate

/-- `Dictionary`: a trie of `DictEntry` payloads. -/
structure Dictionary where
  trie : Trie DictEntry

/-- `Dictionary::default()`. -/
def Dictionary.empty : Dictionary := ⟨Trie.empty⟩

/-- `Dictionary::insert`: normalise, compute the frequency vector and the
optional anagram number (`.ok()` turns the overflow error into `None`), and
add the entry to the trie under the normalized spelling. -/
def Dictionary.insert (d : Dictionary) (original : String) : Dictionary :=
  let normalized := NormalizedWord.from_str_safe original
  let char_freq := CharFreq.fromWord normalized
  let anag_num := AnagramNumber.tryFrom normalized
  ⟨d.trie.add normalized ⟨char_freq, anag_num, original⟩⟩

/-- `Dictionary::find`. -/
def Dictionary.find (d : Dictionary) (word : NormalizedWord) : Option (List DictEntry) :=
  d.trie.get word

/-- `Dictionary::iter`. -/
def Dictionary.iter (d : Dictionary) : List DictIterItem :=
  (d.trie.iter).map DictIterItem.ofPair

/-- `Dictionary::iter_search`: positional filtering by the (defaulted) trie
search, then the predicate filter. -/
def Dictionary.iter_search (d : Dictionary) (search : DictSearch) : List DictIterItem :=
  ((d.trie.iter_search (search.trie_search.getD default)).map DictIterItem.ofPair).filter
    (fun x => search.predicate.matches x)

/-- The letter Z. -/
def zChar : NormalizedChar := ⟨25, by omega⟩

/-- Concrete trie of the ordering example: "A", "AB", "B", "CDE", "CDE" with
payloads 1..5, inserted in that order. -/
def exTrie : Trie Nat :=
  ([("A", 1), ("AB", 2), ("B", 3), ("CDE", 4), ("CDE", 5)] : List (String × Nat)).foldl
    (fun t p => t.add_string p.1 p.2) Trie.empty

/-- Concrete trie of the prefix-exclusion example: "C" then "CAR", payloads
1 and 2. -/
def cTrie : Trie Nat := ((Trie.empty).add_string "C" 1).add_string "CAR" 2

/-- Concrete search: pattern "CA" as an exact-length search (maximum depth 2),
i.e. `TrieSearch::exactly("CA")`. -/
def caSearchExact : TrieSearch :=
  ⟨⟨[CharMatch.Only ⟨2, by omega⟩, CharMatch.Only ⟨0, by omega⟩]⟩, some 2⟩

/-- Concrete search: pattern "CA" as a plain prefix search with no depth
bound, i.e. `TrieSearch::from_prefix("CA")`. -/
def caSearchPre : TrieSearch :=
  ⟨⟨[CharMatch.Only ⟨2, by omega⟩, CharMatch.Only ⟨0, by omega⟩]⟩, none⟩

/-- A dictionary entry whose anagram number is absent (overflow), as built by
`Dictionary::insert` for a word of twenty Zs. -/
def overflowItem : DictIterItem :=
  { normalized := List.replicate 20 zChar,
    char_freq := CharFreq.fromWord (List.replicate 20 zChar),
    anag_num := AnagramNumber.tryFrom (List.replicate 20 zChar),
    original := "zzzzzzzzzzzzzzzzzzzz" }

/-! Helper lemmas about the prime table and anagram-number construction. -/

lemma primeOf_prime : ∀ c : NormalizedChar, Nat.Prime (primeOf c) := by decide

lemma primeOf_two_le : ∀ c : NormalizedChar, 2 ≤ primeOf c := by decide

lemma primeOf_injective : Function.Injective primeOf := by decide

lemma map_primeOf_prime (w : NormalizedWord) : ∀ p ∈ w.map primeOf, Nat.Prime p := by
  intro p hp
  rcases List.mem_map.mp hp with ⟨c, _, rfl⟩
  exact primeOf_prime c

lemma prod_primeOf_pos (w : NormalizedWord) : 0 < (w.map primeOf).prod := by
  apply List.prod_pos
  intro p hp
  rcases List.mem_map.mp hp with ⟨c, _, rfl⟩
  have := primeOf_two_le c
  omega

lemma anag_foldlM_some :
    ∀ (w : NormalizedWord) (x n : Nat),
      w.foldlM (fun x c => if x * primeOf c < 2 ^ 128 then some (x * primeOf c) else none) x =
          some n →
        n = x * (w.map primeOf).prod ∧ n < 2 ^ 128 ∨ n = x ∧ w = [] := by
  intro w
  induction w with
  | nil =>
    intro x n h
    rw [List.foldlM_nil] at h
    have hx : x = n := by simpa using h
    exact Or.inr ⟨hx.symm, rfl⟩
  | cons c rest ih =>
    intro x n h
    rw [List.foldlM_cons] at h
    by_cases hg : x * primeOf c < 2 ^ 128
    · rw [if_pos hg] at h
      simp only [Option.bind_eq_bind, Option.some_bind] at h
      rcases ih (x * primeOf c) n h with h1 | h1
      · left
        constructor
        · rw [h1.1]; simp [mul_assoc]
        · exact h1.2
      · left
        constructor
        · rw [h1.2]; simp [h1.1, mul_assoc]
        · rw [h1.1]; exact hg
    · rw [if_neg hg] at h
      simp at h

lemma tryFrom_some {w : NormalizedWord} {n : Nat} (h : AnagramNumber.tryFrom w = some n) :
    n = (w.map primeOf).prod ∧ n < 2 ^ 128 := by
  rcases anag_foldlM_some w 1 n h with h1 | h1
  · rw [one_mul] at h1; exact h1
  · obtain ⟨hn, hw⟩ := h1
    subst hw
    subst hn
    norm_num

lemma anag_foldlM_none :
    ∀ (w : NormalizedWord) (x : Nat), x < 2 ^ 128 →
      (w.foldlM (fun x c => if x * primeOf c < 2 ^ 128 then some (x * primeOf c) else none) x =
          none ↔ 2 ^ 128 ≤ x * (w.map primeOf).prod) := by
  intro w
  induction w with
  | nil =>
    intro x hx
    rw [List.foldlM_nil]
    simp only [List.map_nil, List.prod_nil, mul_one]
    constructor
    · intro h
      have : (some x : Option Nat) = none := h
      simp at this
    · intro h; omega
  | cons c rest ih =>
    intro x hx
    rw [List.foldlM_cons]
    by_cases hg : x * primeOf c < 2 ^ 128
    · rw [if_pos hg]
      simp only [Option.bind_eq_bind, Option.some_bind]
      rw [ih (x * primeOf c) hg]
      rw [List.map_cons, List.prod_cons, ← mul_assoc]
    · rw [if_neg hg]
      simp only [Option.bind_eq_bind, Option.none_bind]
      constructor
      · intro _
        have hrest : 1 ≤ (rest.map primeOf).prod := prod_primeOf_pos rest
        have hmono : x * primeOf c ≤ x * primeOf c * (rest.map primeOf).prod :=
          Nat.le_mul_of_pos_right _ hrest
        rw [List.map_cons, List.prod_cons, ← mul_assoc]
        omega
      · intro _; trivial

lemma tryFrom_none_iff (w : NormalizedWord) :
    AnagramNumber.tryFrom w = none ↔ 2 ^ 128 ≤ (w.map primeOf).prod := by
  have := anag_foldlM_none w 1 (by omega)
  simpa using this

lemma prod_primeOf_eq_iff (w1 w2 : NormalizedWord) :
    (w1.map primeOf).prod = (w2.map primeOf).prod ↔
      ∀ c : NormalizedChar, w1.count c = w2.count c := by
  constructor
  · intro h
    have h1 : (w1.map primeOf).Perm ((w1.map primeOf).prod).primeFactorsList :=
      Nat.primeFactorsList_unique rfl (map_primeOf_prime w1)
    have h2 : (w2.map primeOf).Perm ((w2.map primeOf).prod).primeFactorsList :=
      Nat.primeFactorsList_unique rfl (map_primeOf_prime w2)
    rw [← h] at h2
    have hp : (w1.map primeOf).Perm (w2.map primeOf) := h1.trans h2.symm
    intro c
    have hc := List.perm_iff_count.mp hp (primeOf c)
    rwa [List.count_map_of_injective _ _ primeOf_injective,
      List.count_map_of_injective _ _ primeOf_injective] at hc
  · intro h
    exact ((List.perm_iff_count.mpr h).map primeOf).prod_eq

lemma prod_primeOf_dvd_iff (w1 w2 : NormalizedWord) :
    (w1.map primeOf).prod ∣ (w2.map primeOf).prod ↔
      ∀ c : NormalizedChar, w1.count c ≤ w2.count c := by
  constructor
  · intro h
    obtain ⟨k, hk⟩ := h
    have hk0 : k ≠ 0 := by
      intro h0
      have := prod_primeOf_pos w2
      rw [hk, h0, mul_zero] at this
      omega
    have h1 : (w1.map primeOf).Perm ((w1.map primeOf).prod).primeFactorsList :=
      Nat.primeFactorsList_unique rfl (map_primeOf_prime w1)
    have h2 : (w2.map primeOf).Perm ((w2.map primeOf).prod).primeFactorsList :=
      Nat.primeFactorsList_unique rfl (map_primeOf_prime w2)
    have hmul : ((w2.map primeOf).prod).primeFactorsList.Perm
        (((w1.map primeOf).prod).primeFactorsList ++ k.primeFactorsList) := by
      rw [hk]
      exact Nat.perm_primeFactorsList_mul (by have := prod_primeOf_pos w1; omega) hk0
    intro c
    have hcount := List.perm_iff_count.mp (h2.trans hmul) (primeOf c)
    have hcount1 := List.perm_iff_count.mp h1 (primeOf c)
    rw [List.count_map_of_injective _ _ primeOf_injective] at hcount hcount1
    rw [List.count_append] at hcount
    omega
  · intro h
    have hle : (w1 : Multiset NormalizedChar) ≤ (w2 : Multiset NormalizedChar) := by
      rw [Multiset.le_iff_count]
      intro c
      simpa using h c
    have := Multiset.prod_dvd_prod_of_le (Multiset.map_le_map (f := primeOf) hle)
    simpa using this

/-! Classification behaviour of the `CharFreq::compare` loop. -/

lemma compareGo_subset_class :
    ∀ (ps : List (Nat × Nat)) (diff : List Nat),
      (CharFreq.compareGo ps .Subset diff).toClass =
        if ps.all (fun p => decide (p.1 ≤ p.2)) then .Subset else .Unrelated := by
  intro ps
  induction ps with
  | nil => intro diff; simp [CharFreq.compareGo, CharFreqComparisonResult.toClass]
  | cons hd rest ih =>
    intro diff
    obtain ⟨a, b⟩ := hd
    rw [show CharFreq.compareGo ((a, b) :: rest) .Subset diff =
        (if a = b then CharFreq.compareGo rest .Subset (0 :: diff)
         else if a < b then CharFreq.compareGo rest .Subset ((b - a) :: diff)
         else CharFreqComparisonResult.Unrelated) from rfl]
    by_cases hab : a = b
    · subst hab
      rw [if_pos rfl, ih, List.all_cons, decide_eq_true (Nat.le_refl a), Bool.true_and]
    · by_cases hlt : a < b
      · rw [if_neg hab, if_pos hlt, ih, List.all_cons,
          decide_eq_true (Nat.le_of_lt hlt), Bool.true_and]
      · rw [if_neg hab, if_neg hlt, List.all_cons,
          decide_eq_false (show ¬(a ≤ b) by omega), Bool.false_and]
        rfl

lemma compareGo_superset_class :
    ∀ (ps : List (Nat × Nat)) (diff : List Nat),
      (CharFreq.compareGo ps .Superset diff).toClass =
        if ps.all (fun p => decide (p.2 ≤ p.1)) then .Superset else .Unrelated := by
  intro ps
  induction ps with
  | nil => intro diff; simp [CharFreq.compareGo, CharFreqComparisonResult.toClass]
  | cons hd rest ih =>
    intro diff
    obtain ⟨a, b⟩ := hd
    rw [show CharFreq.compareGo ((a, b) :: rest) .Superset diff =
        (if a = b then CharFreq.compareGo rest .Superset (0 :: diff)
         else if a < b then CharFreqComparisonResult.Unrelated
         else CharFreq.compareGo rest .Superset ((a - b) :: diff)) from rfl]
    by_cases hab : a = b
    · subst hab
      rw [if_pos rfl, ih, List.all_cons, decide_eq_true (Nat.le_refl a), Bool.true_and]
    · by_cases hlt : a < b
      · rw [if_neg hab, if_pos hlt, List.all_cons,
          decide_eq_false (show ¬(b ≤ a) by omega), Bool.false_and]
        rfl
      · rw [if_neg hab, if_neg hlt, ih, List.all_cons,
          decide_eq_true (show b ≤ a by omega), Bool.true_and]

lemma compareGo_same_class :
    ∀ (ps : List (Nat × Nat)) (diff : List Nat),
      (CharFreq.compareGo ps .Same diff).toClass =
        if ps.all (fun p => decide (p.1 = p.2)) then .Same
        else if ps.all (fun p => decide (p.1 ≤ p.2)) then .Subset
        else if ps.all (fun p => decide (p.2 ≤ p.1)) then .Superset
        else .Unrelated := by
  intro ps
  induction ps with
  | nil => intro diff; simp [CharFreq.compareGo, CharFreqComparisonResult.toClass]
  | cons hd rest ih =>
    intro diff
    obtain ⟨a, b⟩ := hd
    rw [show CharFreq.compareGo ((a, b) :: rest) .Same diff =
        (if a = b then CharFreq.compareGo rest .Same (0 :: diff)
         else if a < b then CharFreq.compareGo rest .Subset ((b - a) :: diff)
         else CharFreq.compareGo rest .Superset ((a - b) :: diff)) from rfl]
    by_cases hab : a = b
    · subst hab
      rw [if_pos rfl, ih, List.all_cons, List.all_cons, List.all_cons,
        decide_eq_true (show a = a from rfl), decide_eq_true (Nat.le_refl a), Bool.true_and,
        Bool.true_and, Bool.true_and]
    · by_cases hlt : a < b
      · rw [if_neg hab, if_pos hlt, compareGo_subset_class, List.all_cons, List.all_cons,
          List.all_cons, decide_eq_false hab, decide_eq_true (Nat.le_of_lt hlt),
          decide_eq_false (show ¬(b ≤ a) by omega), Bool.false_and, Bool.true_and,
          Bool.false_and]
        by_cases hr : (rest.all fun p => decide (p.1 ≤ p.2)) = true
        · simp [hr]
        · simp [hr]
      · rw [if_neg hab, if_neg hlt, compareGo_superset_class, List.all_cons, List.all_cons,
          List.all_cons, decide_eq_false hab, decide_eq_false (show ¬(a ≤ b) by omega),
          decide_eq_true (show b ≤ a by omega), Bool.false_and, Bool.false_and,
          Bool.true_and]
        by_cases hr : (rest.all fun p => decide (p.2 ≤ p.1)) = true
        · simp [hr]
        · simp [hr]

lemma fromWord_getD (w : NormalizedWord) (i : Nat) (hi : i < 26) :
    (CharFreq.fromWord w).getD i 0 = w.count (⟨i, hi⟩ : NormalizedChar) := by
  rw [CharFreq.fromWord, List.getD_eq_getElem?_getD, List.getElem?_map]
  rw [List.getElem?_eq_getElem (by simpa using hi)]
  simp

lemma pairs_all_eq_iff (w1 w2 : NormalizedWord) :
    ((List.range 26).map
          (fun i => ((CharFreq.fromWord w1).getD i 0, (CharFreq.fromWord w2).getD i 0))).all
        (fun p => decide (p.1 = p.2)) = true ↔
      ∀ c : NormalizedChar, w1.count c = w2.count c := by
  rw [List.all_eq_true]
  constructor
  · intro h c
    have hm : ((CharFreq.fromWord w1).getD c.val 0, (CharFreq.fromWord w2).getD c.val 0) ∈
        (List.range 26).map
          (fun i => ((CharFreq.fromWord w1).getD i 0, (CharFreq.fromWord w2).getD i 0)) :=
      List.mem_map.mpr ⟨c.val, List.mem_range.mpr c.isLt, rfl⟩
    have := of_decide_eq_true (h _ hm)
    rwa [fromWord_getD _ _ c.isLt, fromWord_getD _ _ c.isLt, Fin.eta] at this
  · intro h p hp
    rcases List.mem_map.mp hp with ⟨i, hi, rfl⟩
    rw [List.mem_range] at hi
    apply decide_eq_true
    show (CharFreq.fromWord w1).getD i 0 = (CharFreq.fromWord w2).getD i 0
    rw [fromWord_getD _ _ hi, fromWord_getD _ _ hi]
    exact h ⟨i, hi⟩

lemma pairs_all_le_iff (w1 w2 : NormalizedWord) :
    ((List.range 26).map
          (fun i => ((CharFreq.fromWord w1).getD i 0, (CharFreq.fromWord w2).getD i 0))).all
        (fun p => decide (p.1 ≤ p.2)) = true ↔
      ∀ c : NormalizedChar, w1.count c ≤ w2.count c := by
  rw [List.all_eq_true]
  constructor
  · intro h c
    have hm : ((CharFreq.fromWord w1).getD c.val 0, (CharFreq.fromWord w2).getD c.val 0) ∈
        (List.range 26).map
          (fun i => ((CharFreq.fromWord w1).getD i 0, (CharFreq.fromWord w2).getD i 0)) :=
      List.mem_map.mpr ⟨c.val, List.mem_range.mpr c.isLt, rfl⟩
    have := of_decide_eq_true (h _ hm)
    rwa [fromWord_getD _ _ c.isLt, fromWord_getD _ _ c.isLt, Fin.eta] at this
  · intro h p hp
    rcases List.mem_map.mp hp with ⟨i, hi, rfl⟩
    rw [List.mem_range] at hi
    apply decide_eq_true
    show (CharFreq.fromWord w1).getD i 0 ≤ (CharFreq.fromWord w2).getD i 0
    rw [fromWord_getD _ _ hi, fromWord_getD _ _ hi]
    exact h ⟨i, hi⟩

lemma pairs_all_ge_iff (w1 w2 : NormalizedWord) :
    ((List.range 26).map
          (fun i => ((CharFreq.fromWord w1).getD i 0, (CharFreq.fromWord w2).getD i 0))).all
        (fun p => decide (p.2 ≤ p.1)) = true ↔
      ∀ c : NormalizedChar, w2.count c ≤ w1.count c := by
  rw [List.all_eq_true]
  constructor
  · intro h c
    have hm : ((CharFreq.fromWord w1).getD c.val 0, (CharFreq.fromWord w2).getD c.val 0) ∈
        (List.range 26).map
          (fun i => ((CharFreq.fromWord w1).getD i 0, (CharFreq.fromWord w2).getD i 0)) :=
      List.mem_map.mpr ⟨c.val, List.mem_range.mpr c.isLt, rfl⟩
    have := of_decide_eq_true (h _ hm)
    rwa [fromWord_getD _ _ c.isLt, fromWord_getD _ _ c.isLt, Fin.eta] at this
  · intro h p hp
    rcases List.mem_map.mp hp with ⟨i, hi, rfl⟩
    rw [List.mem_range] at hi
    apply decide_eq_true
    show (CharFreq.fromWord w2).getD i 0 ≤ (CharFreq.fromWord w1).getD i 0
    rw [fromWord_getD _ _ hi, fromWord_getD _ _ hi]
    exact h ⟨i, hi⟩

lemma fromWord_eq_iff (w1 w2 : NormalizedWord) :
    CharFreq.fromWord w1 = CharFreq.fromWord w2 ↔
      ∀ c : NormalizedChar, w1.count c = w2.count c := by
  rw [CharFreq.fromWord, CharFreq.fromWord]
  constructor
  · intro h c
    have := List.map_inj_left.mp h c (List.mem_finRange c)
    exact this
  · intro h
    exact List.map_inj_left.mpr (fun c _ => h c)

lemma compare_exact_iff (a b : Nat) : AnagramNumber.compare a b = .Exact ↔ a = b := by
  rw [AnagramNumber.compare]
  split_ifs with h1 h2 h3 <;> simp_all

/-- C1: for normalized words w1 and w2 whose Anagram Numbers both construct
without overflow, `AnagramNumber::compare` returns `Exact` if and only if the
letter-frequency vectors of w1 and w2 are equal — the prime-product encoding
is injective over letter multisets. -/
theorem C1_anagram_exact_iff_freq_eq (w1 w2 : NormalizedWord) (n1 n2 : Nat)
    (h1 : AnagramNumber.tryFrom w1 = some n1) (h2 : AnagramNumber.tryFrom w2 = some n2) :
    AnagramNumber.compare n1 n2 = .Exact ↔
      CharFreq.fromWord w1 = CharFreq.fromWord w2 := by
  obtain ⟨hn1, -⟩ := tryFrom_some h1
  obtain ⟨hn2, -⟩ := tryFrom_some h2
  subst hn1
  subst hn2
  rw [compare_exact_iff, fromWord_eq_iff, prod_primeOf_eq_iff]

/-- Witness for C1 at the words CAT and ACT (both have Anagram Number
41 * 5 * 3 = 615). -/
theorem C1_anagram_exact_iff_freq_eq_witness :
    AnagramNumber.tryFrom (NormalizedWord.from_str_safe "CAT") = some 615 ∧
      AnagramNumber.tryFrom (NormalizedWord.from_str_safe "ACT") = some 615 ∧
      (AnagramNumber.compare 615 615 = .Exact ↔
        CharFreq.fromWord (NormalizedWord.from_str_safe "CAT") =
          CharFreq.fromWord (NormalizedWord.from_str_safe "ACT")) :=
  ⟨by decide, by decide,
    C1_anagram_exact_iff_freq_eq _ _ _ _ (by decide) (by decide)⟩

/-- C2 counterexample: at w1 = AT and w2 = CAT (Anagram Numbers 15 and 615)
the Anagram Number comparison reports `Superset` while the Letter-Frequency
Vector comparison reports `Subset`, so the two classifications are not the
same label. -/
theorem C2_subset_superset_agree_counterexample :
    AnagramNumber.tryFrom (NormalizedWord.from_str_safe "AT") = some 15 ∧
      AnagramNumber.tryFrom (NormalizedWord.from_str_safe "CAT") = some 615 ∧
      AnagramNumber.compare 15 615 = .Superset ∧
      (CharFreq.compare (CharFreq.fromWord (NormalizedWord.from_str_safe "AT"))
            (CharFreq.fromWord (NormalizedWord.from_str_safe "CAT"))).toClass =
        .Subset ∧
      (CharFreqClass.Subset ≠ CharFreqClass.Superset) := by
  refine ⟨by decide, by decide, by decide, by decide, by decide⟩

/-- C2 (amended): for words without overflow the two comparisons always
produce corresponding classifications, but with the `Subset`/`Superset`
labels exchanged (`AnagramComparison.toFreqClass` swaps them): `Exact` pairs
with `Same`, `Subset` with `Superset`, `Superset` with `Subset`, and
`Unrelated` with `Unrelated`. -/
theorem C2_subset_superset_agree_swapped (w1 w2 : NormalizedWord) (n1 n2 : Nat)
    (h1 : AnagramNumber.tryFrom w1 = some n1) (h2 : AnagramNumber.tryFrom w2 = some n2) :
    (AnagramNumber.compare n1 n2).toFreqClass =
      (CharFreq.compare (CharFreq.fromWord w1) (CharFreq.fromWord w2)).toClass := by
  obtain ⟨hn1, -⟩ := tryFrom_some h1
  obtain ⟨hn2, -⟩ := tryFrom_some h2
  subst hn1
  subst hn2
  have hpos1 := prod_primeOf_pos w1
  have hpos2 := prod_primeOf_pos w2
  rw [CharFreq.compare, compareGo_same_class]
  by_cases hEq : ∀ c : NormalizedChar, w1.count c = w2.count c
  · rw [if_pos ((pairs_all_eq_iff w1 w2).mpr hEq)]
    have hn : (w1.map primeOf).prod = (w2.map primeOf).prod :=
      (prod_primeOf_eq_iff w1 w2).mpr hEq
    rw [AnagramNumber.compare, if_pos hn]
    rfl
  · rw [if_neg (fun hh => hEq ((pairs_all_eq_iff w1 w2).mp hh))]
    have hne : (w1.map primeOf).prod ≠ (w2.map primeOf).prod :=
      fun hh => hEq ((prod_primeOf_eq_iff w1 w2).mp hh)
    by_cases hLe : ∀ c : NormalizedChar, w1.count c ≤ w2.count c
    · rw [if_pos ((pairs_all_le_iff w1 w2).mpr hLe)]
      have hdvd : (w1.map primeOf).prod ∣ (w2.map primeOf).prod :=
        (prod_primeOf_dvd_iff w1 w2).mpr hLe
      have hlt : (w1.map primeOf).prod < (w2.map primeOf).prod :=
        lt_of_le_of_ne (Nat.le_of_dvd hpos2 hdvd) hne
      rw [AnagramNumber.compare, if_neg hne,
        if_pos ⟨hlt, Nat.mod_eq_zero_of_dvd hdvd⟩]
      rfl
    · rw [if_neg (fun hh => hLe ((pairs_all_le_iff w1 w2).mp hh))]
      by_cases hGe : ∀ c : NormalizedChar, w2.count c ≤ w1.count c
      · rw [if_pos ((pairs_all_ge_iff w1 w2).mpr hGe)]
        have hdvd : (w2.map primeOf).prod ∣ (w1.map primeOf).prod :=
          (prod_primeOf_dvd_iff w2 w1).mpr hGe
        have hlt : (w2.map primeOf).prod < (w1.map primeOf).prod :=
          lt_of_le_of_ne (Nat.le_of_dvd hpos1 hdvd) (fun hh => hne hh.symm)
        rw [AnagramNumber.compare, if_neg hne, if_neg (by omega),
          if_pos ⟨hlt, Nat.mod_eq_zero_of_dvd hdvd⟩]
        rfl
      · rw [if_neg (fun hh => hGe ((pairs_all_ge_iff w1 w2).mp hh))]
        have h1d : ¬((w1.map primeOf).prod ∣ (w2.map primeOf).prod) :=
          fun hd => hLe ((prod_primeOf_dvd_iff w1 w2).mp hd)
        have h2d : ¬((w2.map primeOf).prod ∣ (w1.map primeOf).prod) :=
          fun hd => hGe ((prod_primeOf_dvd_iff w2 w1).mp hd)
        rw [AnagramNumber.compare, if_neg hne,
          if_neg (fun hh => h1d (Nat.dvd_of_mod_eq_zero hh.2)),
          if_neg (fun hh => h2d (Nat.dvd_of_mod_eq_zero hh.2))]
        rfl

/-- Witness for the amended C2 at AT versus CAT. -/
theorem C2_subset_superset_agree_swapped_witness :
    AnagramNumber.tryFrom (NormalizedWord.from_str_safe "AT") = some 15 ∧
      AnagramNumber.tryFrom (NormalizedWord.from_str_safe "CAT") = some 615 ∧
      (AnagramNumber.compare 15 615).toFreqClass =
        (CharFreq.compare (CharFreq.fromWord (NormalizedWord.from_str_safe "AT"))
            (CharFreq.fromWord (NormalizedWord.from_str_safe "CAT"))).toClass :=
  ⟨by decide, by decide,
    C2_subset_superset_agree_swapped _ _ _ _ (by decide) (by decide)⟩

lemma tryFrom_eq_ite (w : NormalizedWord) :
    AnagramNumber.tryFrom w =
      if 2 ^ 128 ≤ (w.map primeOf).prod then none else some ((w.map primeOf).prod) := by
  by_cases hb : 2 ^ 128 ≤ (w.map primeOf).prod
  · rw [if_pos hb]
    exact (tryFrom_none_iff w).mpr hb
  · rw [if_neg hb]
    rcases ho : AnagramNumber.tryFrom w with _ | n
    · exact absurd ((tryFrom_none_iff w).mp ho) hb
    · rw [(tryFrom_some ho).1]

/-- C6: nineteen Zs (prime 101, the rarest-prime letter) construct the exact
prime-power product; twenty Zs overflow and construct nothing; and in general
construction returns the true mathematical product exactly when it is below
`2^128` and the overflow error otherwise — the running product is never
wrapped or truncated. -/
theorem C6_overflow_boundary :
    AnagramNumber.tryFrom (List.replicate 19 zChar) =
        some 120810895044353150938886048668570711901 ∧
      AnagramNumber.tryFrom (List.replicate 20 zChar) = none ∧
      ∀ w : NormalizedWord,
        AnagramNumber.tryFrom w =
          if 2 ^ 128 ≤ (w.map primeOf).prod then none else some ((w.map primeOf).prod) := by
  exact ⟨by decide, by decide, tryFrom_eq_ite⟩

/-! Size bookkeeping for the traversal. -/

lemma Trie.size_pos {T : Type} (t : Trie T) : 1 ≤ Trie.size t := by
  obtain ⟨ch, ts⟩ := t
  rw [Trie.size]
  omega

lemma size_child_le {T : Type} :
    ∀ (ch : List (Option (Trie T))) (i : Nat) (child : Trie T),
      ch.getD i none = some child → Trie.size child ≤ Trie.sizeChildren ch := by
  intro ch
  induction ch with
  | nil => intro i child hi; simp [List.getD] at hi
  | cons x rest ih =>
    intro i child hi
    cases i with
    | zero =>
      rw [List.getD_cons_zero] at hi
      subst hi
      rw [Trie.sizeChildren]
      omega
    | succ j =>
      rw [List.getD_cons_succ] at hi
      have := ih j child hi
      cases x with
      | none => rw [Trie.sizeChildren]; omega
      | some t => rw [Trie.sizeChildren]; omega

lemma sum_range_getD_le {T : Type} :
    ∀ (ch : List (Option (Trie T))) (n : Nat),
      (((List.range n).map (fun i =>
          match ch.getD i none with
          | none => 0
          | some t => Trie.size t)).sum) ≤ Trie.sizeChildren ch := by
  intro ch
  induction ch with
  | nil =>
    intro n
    have hz : ∀ i, (List.nil (α := Option (Trie T))).getD i none = none := by
      intro i; simp [List.getD]
    simp [hz, Trie.sizeChildren]
  | cons x rest ih =>
    intro n
    cases n with
    | zero => simp
    | succ m =>
      rw [List.range_succ_eq_map, List.map_cons, List.sum_cons, List.map_map]
      have hrw : ((List.range m).map
            ((fun i => match (x :: rest).getD i none with
              | none => 0
              | some t => Trie.size t) ∘ Nat.succ)) =
          (List.range m).map (fun i =>
            match rest.getD i none with
            | none => 0
            | some t => Trie.size t) := by
        apply List.map_congr_left
        intro i _
        simp [List.getD_cons_succ]
      rw [hrw, List.getD_cons_zero]
      have hm := ih m
      cases x with
      | none => dsimp only; rw [Trie.sizeChildren]; omega
      | some t => dsimp only; rw [Trie.sizeChildren]; omega

lemma map_finRange_val_eq (f : Nat → Nat) (n : Nat) :
    (List.finRange n).map (fun c => f c.val) = (List.range n).map f := by
  apply List.ext_getElem
  · simp
  · intro i h1 h2
    simp

lemma sum_finRange_le_sizeChildren {T : Type} (ch : List (Option (Trie T))) :
    (((List.finRange 26).map (fun c =>
        match ch.getD c.val none with
        | none => 0
        | some t => Trie.size t)).sum) ≤ Trie.sizeChildren ch := by
  rw [map_finRange_val_eq (fun i =>
    match ch.getD i none with
    | none => 0
    | some t => Trie.size t) 26]
  exact sum_range_getD_le ch 26

lemma sum_filter_le {α : Type _} (g : α → Nat) :
    ∀ (l : List α) (p : α → Bool), ((l.filter p).map g).sum ≤ (l.map g).sum := by
  intro l p
  induction l with
  | nil => simp
  | cons x rest ih =>
    rw [List.filter_cons]
    by_cases hx : p x = true
    · rw [if_pos hx]; simp; omega
    · rw [if_neg hx]; simp; omega

lemma sum_filterMap_pairs {T : Type} (g : NormalizedChar → NormalizedWord) :
    ∀ (l : List (NormalizedChar × Option (Trie T))),
      ((l.filterMap (fun p => p.2.map (fun child => (g p.1, child)))).map
          (fun p => Trie.size p.2)).sum =
        (l.map (fun p =>
          match p.2 with
          | none => 0
          | some t => Trie.size t)).sum := by
  intro l
  induction l with
  | nil => simp
  | cons hd rest ih =>
    obtain ⟨c, o⟩ := hd
    cases o with
    | none => simpa using ih
    | some t => simpa using ih

lemma sum_pushed_le {T : Type} (ch : List (Option (Trie T))) (w : NormalizedWord)
    (pred : NormalizedChar × Option (Trie T) → Bool) :
    (((((Trie.childList ch).filter pred).filterMap
            (fun p => p.2.map (fun child => (w ++ [p.1], child)))).map
        (fun p => Trie.size p.2)).sum) ≤ Trie.sizeChildren ch := by
  rw [sum_filterMap_pairs (fun c => w ++ [c])]
  refine le_trans
    (sum_filter_le (fun (p : NormalizedChar × Option (Trie T)) =>
      match p.2 with
      | none => 0
      | some t => Trie.size t) (Trie.childList ch) pred) ?_
  rw [Trie.childList, List.map_map]
  have hcong : ((List.finRange 26).map
        ((fun (p : NormalizedChar × Option (Trie T)) =>
          match p.2 with
          | none => 0
          | some t => Trie.size t) ∘ (fun c => (c, ch.getD c.val none)))) =
      ((List.finRange 26).map (fun c =>
        match ch.getD c.val none with
        | none => 0
        | some t => Trie.size t)) := by
    apply List.map_congr_left
    intro c _
    rfl
  rw [hcong]
  exact sum_finRange_le_sizeChildren ch

lemma visit_size_lt {T : Type} (it : TrieIter T) (w : NormalizedWord) (node : Trie T) :
    TrieIter.size (TrieIter.visit it w node) < TrieIter.size it + 2 * Trie.size node := by
  obtain ⟨ch, ts⟩ := node
  have hpush := sum_pushed_le ch w
    (fun p => (it.search.get_char_restriction w.length).matches p.1)
  have hsz : Trie.size (Trie.node ch ts) = 1 + ts.length + Trie.sizeChildren ch := by
    rw [Trie.size]
  simp only [TrieIter.visit, Trie.terminals, Trie.children]
  split_ifs <;>
    simp only [TrieIter.size, List.length_append, List.length_map, List.map_append,
      List.sum_append, List.map_reverse, List.sum_reverse] <;>
    omega

lemma visit_default {T : Type} (it : TrieIter T) (w : NormalizedWord) (node : Trie T)
    (hs : it.search = default) :
    TrieIter.visit it w node =
      { it with
        terminal_queue := it.terminal_queue ++ node.terminals.map (fun t => (w, t)),
        node_queue := it.node_queue ++ (Trie.childrenPairs node.children w).reverse } := by
  have hdef : (default : TrieSearch) = ⟨⟨[]⟩, none⟩ := rfl
  rw [TrieIter.visit]
  rw [hs, hdef]
  simp only [List.length_nil, Nat.zero_le, if_true, ite_true]
  have hbm : TrieSearch.below_max ⟨⟨[]⟩, none⟩ w.length = true := rfl
  rw [if_pos hbm]
  have hres : TrieSearch.get_char_restriction ⟨⟨[]⟩, none⟩ w.length = .Any := by
    rw [TrieSearch.get_char_restriction, TriePat.get_char_restriction]
    simp
  rw [hres]
  have hfil : ((Trie.childList node.children).filter
      (fun p => CharMatch.matches .Any p.1)) = Trie.childList node.children := by
    apply List.filter_eq_self.mpr
    intro p _
    rfl
  rw [hfil, Trie.childrenPairs]

lemma getLast?_split {α : Type _} {l : List α} {a : α} (h : l.getLast? = some a) :
    l.dropLast ++ [a] = l := by
  have hne : l ≠ [] := by
    intro h0
    subst h0
    simp at h
  have h2 : l.getLast hne = a := by
    have h3 := List.getLast?_eq_getLast l hne
    rw [h3] at h
    exact Option.some_inj.mp h
  rw [← h2]
  exact List.dropLast_append_getLast hne

lemma flatten_filterMap_option {α β γ : Type _} (f : α → Option β) (g : β → List γ) :
    ∀ l : List α,
      ((l.filterMap f).map g).flatten =
        (l.map (fun a =>
          match f a with
          | none => []
          | some b => g b)).flatten := by
  intro l
  induction l with
  | nil => simp
  | cons hd rest ih =>
    rcases hh : f hd with _ | b
    · rw [List.map_cons, List.flatten_cons, hh]
      rw [List.filterMap_cons_none hh]
      simpa using ih
    · rw [List.map_cons, List.flatten_cons, hh]
      rw [List.filterMap_cons_some hh]
      rw [List.map_cons, List.flatten_cons, ih]

lemma dfs_node_eq {T : Type} (t : Trie T) (w : NormalizedWord) :
    Trie.dfs t w =
      t.terminals.map (fun v => (w, v)) ++
        ((Trie.childrenPairs t.children w).map (fun p => Trie.dfs p.2 p.1)).flatten := by
  obtain ⟨ch, ts⟩ := t
  rw [Trie.childrenPairs, flatten_filterMap_option, Trie.terminals, Trie.children]
  rw [Trie.dfs]
  congr 1
  rw [Trie.childList, List.map_map]
  apply congrArg List.flatten
  apply List.map_congr_left
  intro c _
  show (match hh : ch.getD c.val none with
    | none => []
    | some child => Trie.dfs child (w ++ [c])) = _
  split
  · rename_i heq
    simp only [Function.comp_apply]
    rw [heq]
    rfl
  · rename_i child heq
    simp only [Function.comp_apply]
    rw [heq]
    rfl

lemma runF_default {T : Type} :
    ∀ (fuel : Nat) (it : TrieIter T), it.search = default → TrieIter.size it < fuel →
      TrieIter.runF fuel it =
        it.terminal_queue ++
          ((it.node_queue.reverse.map (fun p => Trie.dfs p.2 p.1)).flatten) := by
  intro fuel
  induction fuel with
  | zero => intro it hs hf; omega
  | succ n ih =>
    intro it hs hf
    rw [TrieIter.runF]
    rcases htq : it.terminal_queue with _ | ⟨x, rest⟩
    · rcases hnq : it.node_queue.getLast? with _ | ⟨w, node⟩
      · have hnil : it.node_queue = [] := List.getLast?_eq_none_iff.mp hnq
        rw [hnil]
        simp
      · -- pop the top of the node worklist and visit it
        show TrieIter.runF n
            (TrieIter.visit
              (TrieIter.mk it.search it.node_queue.dropLast []) w node) =
          [] ++ ((it.node_queue.reverse.map (fun p => Trie.dfs p.2 p.1)).flatten)
        have hsplit : it.node_queue.dropLast ++ [(w, node)] = it.node_queue :=
          getLast?_split hnq
        have hsum : ((it.node_queue.map (fun p => Trie.size p.2)).sum) =
            ((it.node_queue.dropLast.map (fun p => Trie.size p.2)).sum) + Trie.size node := by
          conv_lhs => rw [← hsplit]
          rw [List.map_append, List.sum_append]
          simp
        have hs2 : (TrieIter.mk (T := T) it.search it.node_queue.dropLast []).search =
            default := hs
        have hvd := visit_default
          (TrieIter.mk (T := T) it.search it.node_queue.dropLast []) w node hs2
        rw [hvd]
        have hs3 : (TrieIter.mk (T := T) it.search
            (it.node_queue.dropLast ++ (Trie.childrenPairs node.children w).reverse)
            ([] ++ node.terminals.map (fun t => (w, t)))).search = default := hs
        have hsz3 : TrieIter.size
            (TrieIter.mk (T := T) it.search
              (it.node_queue.dropLast ++ (Trie.childrenPairs node.children w).reverse)
              ([] ++ node.terminals.map (fun t => (w, t)))) < n := by
          have hv := visit_size_lt
            (TrieIter.mk (T := T) it.search it.node_queue.dropLast []) w node
          rw [hvd] at hv
          dsimp only at hv
          have h0 : TrieIter.size (TrieIter.mk (T := T) it.search it.node_queue.dropLast []) =
              2 * ((it.node_queue.dropLast.map (fun p => Trie.size p.2)).sum) := by
            rw [TrieIter.size]
            simp
          have hit : TrieIter.size it =
              2 * (((it.node_queue.dropLast.map (fun p => Trie.size p.2)).sum) +
                Trie.size node) := by
            rw [TrieIter.size, hsum, htq]
            simp
          omega
        rw [ih _ hs3 hsz3]
        dsimp only
        simp only [List.nil_append, List.reverse_append, List.reverse_reverse,
          List.map_append, List.flatten_append]
        conv_rhs => rw [← hsplit]
        rw [List.reverse_append]
        simp only [List.reverse_cons, List.reverse_nil, List.nil_append, List.map_cons,
          List.flatten_cons, List.map_append, List.flatten_append]
        rw [dfs_node_eq node w]
        simp [List.append_assoc]
    · -- terminal queue nonempty: emit the head
      show x :: TrieIter.runF n (TrieIter.mk it.search it.node_queue rest) =
        (x :: rest) ++ ((it.node_queue.reverse.map (fun p => Trie.dfs p.2 p.1)).flatten)
      have hs' : (TrieIter.mk (T := T) it.search it.node_queue rest).search = default := hs
      have hsz : TrieIter.size (TrieIter.mk (T := T) it.search it.node_queue rest) < n := by
        have h1 : TrieIter.size it =
            TrieIter.size (TrieIter.mk (T := T) it.search it.node_queue rest) + 1 := by
          rw [TrieIter.size, TrieIter.size, htq]
          simp
          omega
        omega
      rw [ih _ hs' hsz]
      simp

lemma iter_eq_dfs {T : Type} (t : Trie T) : Trie.iter t = Trie.dfs t [] := by
  rw [Trie.iter, Trie.iter_search]
  rw [runF_default _ _ rfl (by omega)]
  simp [TrieIter.init]

lemma mem_childrenPairs {T : Type} {ch : List (Option (Trie T))} {w : NormalizedWord}
    {p : NormalizedWord × Trie T} (hp : p ∈ Trie.childrenPairs ch w) :
    ∃ c : NormalizedChar, ∃ child : Trie T,
      ch.getD c.val none = some child ∧ p = (w ++ [c], child) := by
  rw [Trie.childrenPairs] at hp
  rcases List.mem_filterMap.mp hp with ⟨⟨c, o⟩, hmem, hf⟩
  cases o with
  | none => simp at hf
  | some child =>
    rw [Trie.childList] at hmem
    rcases List.mem_map.mp hmem with ⟨c', _, hceq⟩
    have hc : c' = c := congrArg Prod.fst hceq
    subst hc
    have ho : ch.getD c'.val none = some child := congrArg Prod.snd hceq
    exact ⟨c', child, ho, by simpa using hf.symm⟩

lemma dfs_word_extends {T : Type} :
    ∀ (n : Nat) (t : Trie T) (w : NormalizedWord), Trie.size t ≤ n →
      ∀ p ∈ Trie.dfs t w, ∃ suf, p.1 = w ++ suf := by
  intro n
  induction n with
  | zero => intro t w h; have := Trie.size_pos t; omega
  | succ n ih =>
    intro t w hsz p hp
    obtain ⟨ch, ts⟩ := t
    rw [dfs_node_eq] at hp
    simp only [Trie.children, Trie.terminals] at hp
    rcases List.mem_append.mp hp with h1 | h1
    · rcases List.mem_map.mp h1 with ⟨v, _, rfl⟩
      exact ⟨[], by simp⟩
    · rcases List.mem_flatten.mp h1 with ⟨l, hl, hpl⟩
      rcases List.mem_map.mp hl with ⟨q, hq, rfl⟩
      rcases mem_childrenPairs hq with ⟨c, child, hgd, rfl⟩
      have hchild : Trie.size child ≤ n := by
        have h2 := size_child_le ch c.val child hgd
        have h3 : Trie.size (Trie.node ch ts) = 1 + ts.length + Trie.sizeChildren ch := by
          rw [Trie.size]
        omega
      rcases ih child (w ++ [c]) hchild p hpl with ⟨suf, hsuf⟩
      exact ⟨[c] ++ suf, by rw [hsuf, List.append_assoc]⟩

lemma lex_append_right (w : NormalizedWord) :
    ∀ x : NormalizedWord, x ≠ [] → List.Lex (· < ·) w (w ++ x) := by
  induction w with
  | nil =>
    intro x hx
    cases x with
    | nil => exact absurd rfl hx
    | cons a t => exact List.Lex.nil
  | cons hd tl ih =>
    intro x hx
    exact List.Lex.cons (ih x hx)

lemma lex_of_lt_at (c1 c2 : NormalizedChar) (hc : c1 < c2) :
    ∀ (w s1 s2 : NormalizedWord),
      List.Lex (· < ·) (w ++ c1 :: s1) (w ++ c2 :: s2) := by
  intro w
  induction w with
  | nil => intro s1 s2; exact List.Lex.rel hc
  | cons hd tl ih => intro s1 s2; exact List.Lex.cons (ih s1 s2)

lemma pairwise_wordLe_const {T : Type} (w : NormalizedWord) (ts : List T) :
    ((ts.map (fun v => (w, v))).map Prod.fst).Pairwise wordLe := by
  induction ts with
  | nil => simp
  | cons v rest ih =>
    simp only [List.map_cons, List.pairwise_cons]
    constructor
    · intro b hb
      rcases List.mem_map.mp hb with ⟨q, hq, rfl⟩
      rcases List.mem_map.mp hq with ⟨v', _, rfl⟩
      exact Or.inl rfl
    · exact ih

lemma childrenPairs_pairwise_lex {T : Type} (ch : List (Option (Trie T)))
    (w : NormalizedWord) :
    (Trie.childrenPairs ch w).Pairwise (fun p q => List.Lex (· < ·) p.1 q.1) := by
  rw [Trie.childrenPairs, Trie.childList]
  refine List.Pairwise.filterMap _ ?_ ?_
    (R := fun (p q : NormalizedChar × Option (Trie T)) => p.1 < q.1)
  · rintro ⟨c1, o1⟩ ⟨c2, o2⟩ hlt b hb b' hb'
    cases o1 with
    | none => simp at hb
    | some t1 =>
      cases o2 with
      | none => simp at hb'
      | some t2 =>
        have hb1 : b = (w ++ [c1], t1) := by simpa using hb.symm
        have hb2 : b' = (w ++ [c2], t2) := by simpa using hb'.symm
        rw [hb1, hb2]
        exact lex_of_lt_at c1 c2 hlt w [] []
  · rw [List.pairwise_map]
    exact (List.pairwise_lt_finRange 26).imp (fun h => h)

lemma dfs_sorted {T : Type} :
    ∀ (n : Nat) (t : Trie T) (w : NormalizedWord), Trie.size t ≤ n →
      ((Trie.dfs t w).map Prod.fst).Pairwise wordLe := by
  intro n
  induction n with
  | zero => intro t w h; have := Trie.size_pos t; omega
  | succ n ih =>
    intro t w hsz
    obtain ⟨ch, ts⟩ := t
    have hszn : Trie.size (Trie.node ch ts) = 1 + ts.length + Trie.sizeChildren ch := by
      rw [Trie.size]
    have hpw := childrenPairs_pairwise_lex ch w
    rw [dfs_node_eq]
    simp only [Trie.children, Trie.terminals]
    rw [List.map_append, List.pairwise_append]
    refine ⟨pairwise_wordLe_const w ts, ?_, ?_⟩
    · -- the flattened children enumerations are pairwise sorted
      rw [List.map_flatten, List.map_map, List.pairwise_flatten]
      constructor
      · intro l hl
        rcases List.mem_map.mp hl with ⟨q, hq, rfl⟩
        simp only [Function.comp_apply]
        rcases mem_childrenPairs hq with ⟨c, child, hgd, rfl⟩
        have hchild : Trie.size child ≤ n := by
          have h2 := size_child_le ch c.val child hgd
          omega
        exact ih child (w ++ [c]) hchild
      · rw [List.pairwise_map]
        apply hpw.imp_of_mem
        intro p q hp hq hlex
        intro a ha b hb
        simp only [Function.comp_apply] at ha hb
        rcases List.mem_map.mp ha with ⟨pa, hpa, rfl⟩
        rcases List.mem_map.mp hb with ⟨pb, hpb, rfl⟩
        rcases mem_childrenPairs hp with ⟨c1, t1, hg1, rfl⟩
        rcases mem_childrenPairs hq with ⟨c2, t2, hg2, rfl⟩
        have ht1 : Trie.size t1 ≤ n := by
          have := size_child_le ch c1.val t1 hg1
          omega
        have ht2 : Trie.size t2 ≤ n := by
          have := size_child_le ch c2.val t2 hg2
          omega
        rcases dfs_word_extends n t1 (w ++ [c1]) ht1 pa hpa with ⟨s1, hs1⟩
        rcases dfs_word_extends n t2 (w ++ [c2]) ht2 pb hpb with ⟨s2, hs2⟩
        have hc12 : c1 < c2 := by
          by_contra hc
          rcases lt_or_eq_of_le (not_lt.mp hc) with h | h
          · exact asymm (lex_of_lt_at c2 c1 h w [] []) hlex
          · rw [h] at hlex
            exact asymm hlex hlex
        right
        rw [hs1, hs2, List.append_assoc, List.append_assoc]
        exact lex_of_lt_at c1 c2 hc12 w s1 s2
    · -- terminals come before every deeper word
      intro a ha b hb
      rcases List.mem_map.mp ha with ⟨q, hq, rfl⟩
      rcases List.mem_map.mp hq with ⟨v, _, rfl⟩
      rcases List.mem_map.mp hb with ⟨q', hq', rfl⟩
      rcases List.mem_flatten.mp hq' with ⟨l, hl, hql⟩
      rcases List.mem_map.mp hl with ⟨q2, hq2, rfl⟩
      rcases mem_childrenPairs hq2 with ⟨c, child, hgd, rfl⟩
      have hchild : Trie.size child ≤ n := by
        have := size_child_le ch c.val child hgd
        omega
      rcases dfs_word_extends n child (w ++ [c]) hchild q' hql with ⟨suf, hsuf⟩
      right
      rw [hsuf, List.append_assoc]
      exact lex_append_right w ([c] ++ suf) (by simp)

lemma mem_childrenPairs_of_getD {T : Type} {ch : List (Option (Trie T))}
    {c : NormalizedChar} {child : Trie T} (hgd : ch.getD c.val none = some child)
    (w : NormalizedWord) : (w ++ [c], child) ∈ Trie.childrenPairs ch w := by
  rw [Trie.childrenPairs]
  apply List.mem_filterMap.mpr
  refine ⟨(c, some child), ?_, by simp⟩
  rw [Trie.childList]
  have : (c, ch.getD c.val none) ∈ (List.finRange 26).map
      (fun c => (c, ch.getD c.val none)) :=
    List.mem_map.mpr ⟨c, List.mem_finRange c, rfl⟩
  rwa [hgd] at this

lemma childrenPairs_nodup {T : Type} (ch : List (Option (Trie T))) (w : NormalizedWord) :
    (Trie.childrenPairs ch w).Nodup := by
  have h := childrenPairs_pairwise_lex ch w
  apply List.Pairwise.imp_of_mem ?_ h
  intro p q _ _ hlex
  intro hcontra
  rw [hcontra] at hlex
  exact asymm hlex hlex

lemma filter_flatten_map {α β : Type _} (g : α → List β) (p : β → Bool) :
    ∀ L : List α, ((L.map g).flatten).filter p = (L.map (fun a => (g a).filter p)).flatten := by
  intro L
  induction L with
  | nil => simp
  | cons hd rest ih =>
    rw [List.map_cons, List.flatten_cons, List.filter_append, ih, List.map_cons,
      List.flatten_cons]

lemma flatten_eq_single {α β : Type _} (f : α → List β) :
    ∀ (L : List α) (a : α), L.Nodup → a ∈ L → (∀ x ∈ L, x ≠ a → f x = []) →
      (L.map f).flatten = f a := by
  intro L
  induction L with
  | nil => intro a _ ha _; simp at ha
  | cons hd rest ih =>
    intro a hnd hmem hothers
    rw [List.map_cons, List.flatten_cons]
    rcases List.mem_cons.mp hmem with heq | hrest
    · subst heq
      have hrest_nil : ∀ x ∈ rest, f x = [] := by
        intro x hx
        apply hothers x (List.mem_cons_of_mem _ hx)
        intro hxa
        subst hxa
        exact (List.nodup_cons.mp hnd).1 hx
      have : (rest.map f).flatten = [] := by
        apply List.flatten_eq_nil_iff.mpr
        intro l hl
        rcases List.mem_map.mp hl with ⟨x, hx, rfl⟩
        exact hrest_nil x hx
      rw [this, List.append_nil]
    · have hhd : f hd = [] := by
        apply hothers hd (List.mem_cons_self hd rest)
        intro hda
        subst hda
        exact (List.nodup_cons.mp hnd).1 hrest
      rw [hhd, List.nil_append]
      exact ih a (List.nodup_cons.mp hnd).2 hrest
        (fun x hx hxa => hothers x (List.mem_cons_of_mem _ hx) hxa)

lemma dfs_filter {T : Type} :
    ∀ (n : Nat) (t : Trie T) (pre w : NormalizedWord), Trie.size t ≤ n →
      ((Trie.dfs t pre).filter (fun p => decide (p.1 = pre ++ w))).map Prod.snd =
        (Trie.get t w).getD [] := by
  intro n
  induction n with
  | zero => intro t pre w h; have := Trie.size_pos t; omega
  | succ n ih =>
    intro t pre w hsz
    obtain ⟨ch, ts⟩ := t
    have hszn : Trie.size (Trie.node ch ts) = 1 + ts.length + Trie.sizeChildren ch := by
      rw [Trie.size]
    rw [dfs_node_eq]
    simp only [Trie.children, Trie.terminals]
    rw [List.filter_append, List.map_append]
    cases w with
    | nil =>
      have hterm : (ts.map (fun v => (pre, v))).filter
          (fun p => decide (p.1 = pre ++ [])) = ts.map (fun v => (pre, v)) := by
        apply List.filter_eq_self.mpr
        intro p hp
        rcases List.mem_map.mp hp with ⟨v, _, rfl⟩
        simp
      rw [hterm]
      have hflat : ((((Trie.childrenPairs ch pre).map
          (fun p => Trie.dfs p.2 p.1)).flatten).filter
            (fun p => decide (p.1 = pre ++ []))) = [] := by
        apply List.filter_eq_nil_iff.mpr
        intro p hp
        rcases List.mem_flatten.mp hp with ⟨l, hl, hpl⟩
        rcases List.mem_map.mp hl with ⟨q, hq, rfl⟩
        rcases mem_childrenPairs hq with ⟨c, child, hgd, rfl⟩
        have hchild : Trie.size child ≤ n := by
          have := size_child_le ch c.val child hgd
          omega
        rcases dfs_word_extends n child (pre ++ [c]) hchild p hpl with ⟨suf, hsuf⟩
        simp only [hsuf, decide_eq_true_eq]
        intro hcontra
        apply_fun List.length at hcontra
        simp at hcontra
      rw [hflat]
      rw [Trie.get]
      simp [List.map_map]
    | cons c rest =>
      have hterm : (ts.map (fun v => (pre, v))).filter
          (fun p => decide (p.1 = pre ++ c :: rest)) = [] := by
        apply List.filter_eq_nil_iff.mpr
        intro p hp
        rcases List.mem_map.mp hp with ⟨v, _, rfl⟩
        simp only [decide_eq_true_eq]
        intro hcontra
        apply_fun List.length at hcontra
        simp at hcontra
      rw [hterm]
      simp only [List.map_nil, List.nil_append]
      rw [filter_flatten_map]
      rcases hgd : ch.getD c.val none with _ | child
      · -- no child in the c direction: nothing survives the filter
        have hall : ((Trie.childrenPairs ch pre).map
            (fun q => (Trie.dfs q.2 q.1).filter
              (fun p => decide (p.1 = pre ++ c :: rest)))).flatten = [] := by
          apply List.flatten_eq_nil_iff.mpr
          intro l hl
          rcases List.mem_map.mp hl with ⟨q, hq, rfl⟩
          rcases mem_childrenPairs hq with ⟨c', child', hg', rfl⟩
          apply List.filter_eq_nil_iff.mpr
          intro p hp
          have hchild : Trie.size child' ≤ n := by
            have := size_child_le ch c'.val child' hg'
            omega
          rcases dfs_word_extends n child' (pre ++ [c']) hchild p hp with ⟨suf, hsuf⟩
          simp only [hsuf, decide_eq_true_eq]
          intro hcontra
          have happ : pre ++ ([c'] ++ suf) = pre ++ ([c] ++ rest) := by
            simpa [List.append_assoc] using hcontra
          have htail := List.append_cancel_left happ
          have hcc : c' = c := by
            have := List.head_eq_of_cons_eq htail
            exact this
          rw [hcc, hgd] at hg'
          exact Option.noConfusion hg'
        rw [hall]
        rw [Trie.get, hgd]
        simp
      · -- a child exists in the c direction: only its group survives
        have hchild : Trie.size child ≤ n := by
          have := size_child_le ch c.val child hgd
          omega
        have hsingle : ((Trie.childrenPairs ch pre).map
            (fun q => (Trie.dfs q.2 q.1).filter
              (fun p => decide (p.1 = pre ++ c :: rest)))).flatten =
            (Trie.dfs child (pre ++ [c])).filter
              (fun p => decide (p.1 = pre ++ c :: rest)) := by
          apply flatten_eq_single _ _ (pre ++ [c], child)
            (childrenPairs_nodup ch pre) (mem_childrenPairs_of_getD hgd pre)
          intro x hx hxa
          rcases mem_childrenPairs hx with ⟨c', child', hg', rfl⟩
          apply List.filter_eq_nil_iff.mpr
          intro p hp
          have hchild' : Trie.size child' ≤ n := by
            have := size_child_le ch c'.val child' hg'
            omega
          rcases dfs_word_extends n child' (pre ++ [c']) hchild' p hp with ⟨suf, hsuf⟩
          simp only [hsuf, decide_eq_true_eq]
          intro hcontra
          have happ : pre ++ ([c'] ++ suf) = pre ++ ([c] ++ rest) := by
            simpa [List.append_assoc] using hcontra
          have htail := List.append_cancel_left happ
          have hcc : c' = c := List.head_eq_of_cons_eq htail
          subst hcc
          rw [hgd] at hg'
          have hcc2 : child' = child := by
            injection hg' with h
            exact h.symm
          subst hcc2
          exact hxa rfl
        rw [hsingle]
        have hpred : (fun p : NormalizedWord × T => decide (p.1 = pre ++ c :: rest)) =
            (fun p : NormalizedWord × T => decide (p.1 = (pre ++ [c]) ++ rest)) := by
          funext p
          rw [List.append_cons]
        rw [hpred]
        rw [ih child (pre ++ [c]) rest hchild]
        rw [Trie.get, hgd]

set_option maxRecDepth 40000 in
/-- C4: unconstrained enumeration of the trie. (1) The concrete ordering
example: inserting "A", "AB", "B", "CDE", "CDE" with payloads 1..5 in that
order and enumerating yields exactly those five pairs in that order. (2) For
every trie the words come out sorted (non-strictly) in lexicographic order,
so same-spelling payloads sit consecutively and every word precedes its
extensions. (3) The enumeration is complete and keeps stored order: for
every word, filtering the enumeration to that spelling gives exactly the
node's terminal list (to which `Trie::add` appends), i.e. the payloads in
insertion order. -/
theorem C4_iter_ordering :
    (Trie.iter exTrie =
      [(NormalizedWord.from_str_safe "A", 1), (NormalizedWord.from_str_safe "AB", 2),
        (NormalizedWord.from_str_safe "B", 3), (NormalizedWord.from_str_safe "CDE", 4),
        (NormalizedWord.from_str_safe "CDE", 5)]) ∧
    (∀ (T : Type) (t : Trie T), ((Trie.iter t).map Prod.fst).Pairwise wordLe) ∧
    (∀ (T : Type) (t : Trie T) (w : NormalizedWord),
      ((Trie.iter t).filter (fun p => decide (p.1 = w))).map Prod.snd =
        (Trie.get t w).getD []) := by
  refine ⟨by decide, ?_, ?_⟩
  · intro T t
    rw [iter_eq_dfs]
    exact dfs_sorted (Trie.size t) t [] le_rfl
  · intro T t w
    rw [iter_eq_dfs]
    have h := dfs_filter (Trie.size t) t [] w le_rfl
    simpa using h

lemma visit_search_eq {T : Type} (it : TrieIter T) (w : NormalizedWord) (node : Trie T) :
    (TrieIter.visit it w node).search = it.search := by
  rw [TrieIter.visit]
  split_ifs <;> rfl

lemma visit_tq_cases {T : Type} (it : TrieIter T) (w : NormalizedWord) (node : Trie T) :
    (TrieIter.visit it w node).terminal_queue = it.terminal_queue ∨
      ((TrieIter.visit it w node).terminal_queue =
          it.terminal_queue ++ node.terminals.map (fun t => (w, t)) ∧
        it.search.pat.chars.length ≤ w.length) := by
  rw [TrieIter.visit]
  by_cases hemit : it.search.pat.chars.length ≤ w.length
  · right
    refine ⟨?_, hemit⟩
    simp only [hemit, ite_true]
    split_ifs <;> rfl
  · left
    simp only [hemit, ite_false]
    split_ifs <;> rfl

lemma runF_word_length_ge {T : Type} :
    ∀ (fuel : Nat) (it : TrieIter T),
      (∀ q ∈ it.terminal_queue, it.search.pat.chars.length ≤ q.1.length) →
      ∀ p ∈ TrieIter.runF fuel it, it.search.pat.chars.length ≤ p.1.length := by
  intro fuel
  induction fuel with
  | zero =>
    intro it hq p hp
    rw [TrieIter.runF] at hp
    simp at hp
  | succ n ih =>
    intro it hq p hp
    rcases htq : it.terminal_queue with _ | ⟨x, rest⟩
    · rcases hnq : it.node_queue.getLast? with _ | ⟨w, node⟩
      · have hrun : TrieIter.runF (n + 1) it = [] := by
          rw [TrieIter.runF, htq, hnq]
        rw [hrun] at hp
        simp at hp
      · have hrun : TrieIter.runF (n + 1) it =
            TrieIter.runF n
              (TrieIter.visit (TrieIter.mk it.search it.node_queue.dropLast []) w node) := by
          rw [TrieIter.runF, htq, hnq]
        rw [hrun] at hp
        have hq' : ∀ q ∈ (TrieIter.visit
            (TrieIter.mk (T := T) it.search it.node_queue.dropLast []) w node).terminal_queue,
            (TrieIter.visit (TrieIter.mk (T := T) it.search it.node_queue.dropLast [])
              w node).search.pat.chars.length ≤ q.1.length := by
          rw [visit_search_eq]
          rcases visit_tq_cases
              (TrieIter.mk (T := T) it.search it.node_queue.dropLast []) w node with
            hcase | ⟨hcase, hlen⟩
          · rw [hcase]
            intro q hq2
            simp at hq2
          · rw [hcase]
            intro q hq2
            rcases List.mem_append.mp hq2 with h | h
            · simp at h
            · rcases List.mem_map.mp h with ⟨v, _, rfl⟩
              exact hlen
        have := ih _ hq' p hp
        rwa [visit_search_eq] at this
    · have hrun : TrieIter.runF (n + 1) it =
          x :: TrieIter.runF n (TrieIter.mk it.search it.node_queue rest) := by
        rw [TrieIter.runF, htq]
      rw [hrun] at hp
      rcases List.mem_cons.mp hp with h | h
      · rw [h]
        exact hq x (htq ▸ List.mem_cons_self x rest)
      · exact ih (TrieIter.mk it.search it.node_queue rest)
          (fun q hq2 => hq q (htq ▸ List.mem_cons_of_mem x hq2)) p h

lemma iter_search_word_length_ge {T : Type} (t : Trie T) (s : TrieSearch)
    (p : NormalizedWord × T) (hp : p ∈ t.iter_search s) :
    s.pat.chars.length ≤ p.1.length := by
  rw [Trie.iter_search] at hp
  exact runF_word_length_ge _ (TrieIter.init t s) (by intro q hq; simp [TrieIter.init] at hq)
    p hp

set_option maxRecDepth 40000 in
/-- C5 counterexample: with "C" and "CAR" inserted, the exact-length search
for pattern "CA" (maximum depth 2, `TrieSearch::exactly("CA")`) yields
nothing at all — in particular it does not yield "CAR", contradicting the
claim that this search yields only "CAR". ("CAR" sits at depth 3, beyond the
maximum depth 2.) -/
theorem C5_exact_search_counterexample :
    TrieSearch.exactly "CA" = some caSearchExact ∧
      cTrie.iter_search caSearchExact = [] ∧
      cTrie.iter_search caSearchExact ≠ [(NormalizedWord.from_str_safe "CAR", 2)] := by
  refine ⟨by decide, by decide, by decide⟩

set_option maxRecDepth 40000 in
/-- C5 (amended): with "C" and "CAR" inserted, the exact-length search for
"CA" (maximum depth 2) yields nothing — in particular never the too-short
"C" — while the plain prefix search for "CA" with no depth bound
(`TrieSearch::from_prefix("CA")`) yields only "CAR" and not "C"; in general
a search never yields a word shorter than its pattern's fixed region. -/
theorem C5_prefix_exclusion_amended :
    TrieSearch.exactly "CA" = some caSearchExact ∧
      cTrie.iter_search caSearchExact = [] ∧
      (TriePat.from_pattern "CA").map (fun p => TrieSearch.mk p none) = some caSearchPre ∧
      cTrie.iter_search caSearchPre = [(NormalizedWord.from_str_safe "CAR", 2)] ∧
      (∀ (T : Type) (t : Trie T) (s : TrieSearch) (p : NormalizedWord × T),
        p ∈ t.iter_search s → s.pat.chars.length ≤ p.1.length) := by
  refine ⟨by decide, by decide, by decide, by decide, ?_⟩
  intro T t s p hp
  exact iter_search_word_length_ge t s p hp

set_option maxRecDepth 40000 in
/-- Witness for the amended C5: the pair ("CAR", 2) is yielded by the prefix
search and indeed is at least as long as the pattern. -/
theorem C5_prefix_exclusion_amended_witness :
    (NormalizedWord.from_str_safe "CAR", 2) ∈ cTrie.iter_search caSearchPre ∧
      caSearchPre.pat.chars.length ≤ (NormalizedWord.from_str_safe "CAR").length :=
  ⟨by decide,
    C5_prefix_exclusion_amended.2.2.2.2 Nat cTrie caSearchPre
      (NormalizedWord.from_str_safe "CAR", 2) (by decide)⟩

lemma get_eq_nodeAt {T : Type} :
    ∀ (w : NormalizedWord) (t : Trie T),
      Trie.get t w = (Trie.nodeAt t w).map (fun node => node.terminals) := by
  intro w
  induction w with
  | nil =>
    intro t
    obtain ⟨ch, ts⟩ := t
    rw [Trie.get, Trie.nodeAt]
    rfl
  | cons c rest ih =>
    intro t
    obtain ⟨ch, ts⟩ := t
    rw [Trie.get, Trie.nodeAt]
    rcases hgd : ch.getD c.val none with _ | child
    · rfl
    · exact ih child

set_option maxRecDepth 40000 in
/-- C8: lookup walks the word's path, so `get` is exactly the terminal list
of the node the path reaches: it is `None` precisely when some child slot
along the path is absent (the path does not exist in the trie), and a
present node with zero terminals yields `Some []`, a distinct result.
Concretely, after inserting "AB" into the empty trie, looking up "A" gives
`Some []` (node present, zero terminals) while looking up "B" gives `None`
(path absent). -/
theorem C8_lookup_absence :
    (∀ (T : Type) (t : Trie T) (w : NormalizedWord),
      Trie.get t w = (Trie.nodeAt t w).map (fun node => node.terminals)) ∧
    (∀ (T : Type) (t : Trie T) (w : NormalizedWord),
      (Trie.get t w = none ↔ Trie.nodeAt t w = none)) ∧
    (∀ (T : Type) (t : Trie T), Trie.nodeAt t [] = some t) ∧
    Trie.get (Trie.add Trie.empty (NormalizedWord.from_str_safe "AB") 1)
        (NormalizedWord.from_str_safe "A") = some ([] : List Nat) ∧
    Trie.get (Trie.add Trie.empty (NormalizedWord.from_str_safe "AB") 1)
        (NormalizedWord.from_str_safe "B") = (none : Option (List Nat)) := by
  refine ⟨fun T t w => get_eq_nodeAt w t, ?_, ?_, by decide, by decide⟩
  · intro T t w
    rw [get_eq_nodeAt w t]
    exact Option.map_eq_none'
  · intro T t
    rw [Trie.nodeAt]

lemma getD_some_mem {T : Type} {ch : List (Option (Trie T))} {i : Nat} {x : Trie T}
    (h : ch.getD i none = some x) : some x ∈ ch := by
  induction ch generalizing i with
  | nil => simp [List.getD] at h
  | cons hd rest ih =>
    cases i with
    | zero =>
      rw [List.getD_cons_zero] at h
      rw [h]
      exact List.mem_cons_self _ _
    | succ j =>
      rw [List.getD_cons_succ] at h
      exact List.mem_cons_of_mem _ (ih h)

lemma childrenFull_node_iff {T : Type} (ch : List (Option (Trie T))) (ts : List T) :
    Trie.childrenFull (Trie.node ch ts) = true ↔
      ch.length = 26 ∧ ∀ c : Trie T, some c ∈ ch → Trie.childrenFull c = true := by
  rw [Trie.childrenFull]
  rw [Bool.and_eq_true, List.all_eq_true, beq_iff_eq]
  constructor
  · rintro ⟨hlen, hall⟩
    refine ⟨hlen, ?_⟩
    intro c hc
    exact hall ⟨some c, hc⟩ (List.mem_attach _ _)
  · rintro ⟨hlen, hall⟩
    refine ⟨hlen, ?_⟩
    rintro ⟨o, ho⟩ _
    cases o with
    | none => rfl
    | some c => exact hall c ho

lemma noEmptyDescendants_node_iff {T : Type} (ch : List (Option (Trie T))) (ts : List T) :
    Trie.noEmptyDescendants (Trie.node ch ts) = true ↔
      ∀ c : Trie T, some c ∈ ch →
        Trie.isNonEmptyNode c = true ∧ Trie.noEmptyDescendants c = true := by
  rw [Trie.noEmptyDescendants]
  rw [List.all_eq_true]
  constructor
  · intro hall c hc
    have := hall ⟨some c, hc⟩ (List.mem_attach _ _)
    simpa using this
  · intro hall
    rintro ⟨o, ho⟩ _
    cases o with
    | none => rfl
    | some c =>
      show (Trie.isNonEmptyNode c && Trie.noEmptyDescendants c) = true
      rw [Bool.and_eq_true]
      exact hall c ho

lemma childrenFull_empty {T : Type} : Trie.childrenFull (Trie.empty (T := T)) = true := by
  rw [Trie.empty]
  rw [childrenFull_node_iff]
  refine ⟨by simp, ?_⟩
  intro c hc
  have := List.eq_of_mem_replicate hc
  exact Option.noConfusion this

lemma noEmptyDescendants_empty {T : Type} :
    Trie.noEmptyDescendants (Trie.empty (T := T)) = true := by
  rw [Trie.empty]
  rw [noEmptyDescendants_node_iff]
  intro c hc
  have := List.eq_of_mem_replicate hc
  exact Option.noConfusion this

lemma childrenFull_add {T : Type} :
    ∀ (w : NormalizedWord) (t : Trie T) (v : T), Trie.childrenFull t = true →
      Trie.childrenFull (Trie.add t w v) = true := by
  intro w
  induction w with
  | nil =>
    intro t v hf
    obtain ⟨ch, ts⟩ := t
    rw [Trie.add]
    rw [childrenFull_node_iff] at hf ⊢
    exact hf
  | cons c rest ih =>
    intro t v hf
    obtain ⟨ch, ts⟩ := t
    rw [Trie.add]
    rw [childrenFull_node_iff] at hf ⊢
    obtain ⟨hlen, hall⟩ := hf
    constructor
    · rw [List.length_set]
      exact hlen
    · intro c' hc'
      rcases List.mem_or_eq_of_mem_set hc' with hold | hnew
      · exact hall c' hold
      · have hc'' : c' = Trie.add ((ch.getD c.val none).getD Trie.empty) rest v :=
          Option.some_inj.mp hnew
        subst hc''
        apply ih
        rcases hgd : ch.getD c.val none with _ | child
        · rw [Option.getD_none]
          exact childrenFull_empty
        · rw [Option.getD_some]
          exact hall child (getD_some_mem hgd)

lemma add_isNonEmpty {T : Type} :
    ∀ (w : NormalizedWord) (t : Trie T) (v : T), Trie.childrenFull t = true →
      Trie.isNonEmptyNode (Trie.add t w v) = true := by
  intro w t v hf
  cases w with
  | nil =>
    obtain ⟨ch, ts⟩ := t
    rw [Trie.add, Trie.isNonEmptyNode]
    simp
  | cons c rest =>
    obtain ⟨ch, ts⟩ := t
    rw [Trie.add, Trie.isNonEmptyNode]
    rw [childrenFull_node_iff] at hf
    have hlt : c.val < ch.length := by
      rw [hf.1]
      exact c.isLt
    rw [Bool.or_eq_true]
    right
    apply List.any_eq_true.mpr
    refine ⟨some (Trie.add ((ch.getD c.val none).getD Trie.empty) rest v), ?_, rfl⟩
    have hlt2 : c.val < (ch.set c.val
        (some (Trie.add ((ch.getD c.val none).getD Trie.empty) rest v))).length := by
      rw [List.length_set]
      exact hlt
    have hmem := List.getElem_mem hlt2
    rw [List.getElem_set_self hlt2] at hmem
    exact hmem

lemma noEmptyDescendants_add {T : Type} :
    ∀ (w : NormalizedWord) (t : Trie T) (v : T), Trie.childrenFull t = true →
      Trie.noEmptyDescendants t = true →
      Trie.noEmptyDescendants (Trie.add t w v) = true := by
  intro w
  induction w with
  | nil =>
    intro t v hf hne
    obtain ⟨ch, ts⟩ := t
    rw [Trie.add]
    rw [noEmptyDescendants_node_iff] at hne ⊢
    exact hne
  | cons c rest ih =>
    intro t v hf hne
    obtain ⟨ch, ts⟩ := t
    rw [Trie.add]
    rw [noEmptyDescendants_node_iff] at hne ⊢
    rw [childrenFull_node_iff] at hf
    intro c' hc'
    rcases List.mem_or_eq_of_mem_set hc' with hold | hnew
    · exact hne c' hold
    · have hc'' : c' = Trie.add ((ch.getD c.val none).getD Trie.empty) rest v :=
        Option.some_inj.mp hnew
      subst hc''
      have hcf : Trie.childrenFull ((ch.getD c.val none).getD Trie.empty) = true := by
        rcases hgd : ch.getD c.val none with _ | child
        · rw [Option.getD_none]
          exact childrenFull_empty
        · rw [Option.getD_some]
          exact hf.2 child (getD_some_mem hgd)
      have hcne : Trie.noEmptyDescendants ((ch.getD c.val none).getD Trie.empty) = true := by
        rcases hgd : ch.getD c.val none with _ | child
        · rw [Option.getD_none]
          exact noEmptyDescendants_empty
        · rw [Option.getD_some]
          exact (hne child (getD_some_mem hgd)).2
      exact ⟨add_isNonEmpty rest _ v hcf, ih _ v hcf hcne⟩

/-- C9: starting from the empty trie, after any sequence of `add(word,
payload)` operations every node other than the (implicit, possibly empty)
root has at least one terminal or at least one populated child slot — no
other empty leaf node ever persists. -/
theorem C9_no_empty_leaves (T : Type) (ops : List (NormalizedWord × T)) :
    Trie.noEmptyDescendants
      (ops.foldl (fun t p => Trie.add t p.1 p.2) Trie.empty) = true := by
  suffices h : ∀ (t : Trie T), Trie.childrenFull t = true →
      Trie.noEmptyDescendants t = true →
      Trie.childrenFull (ops.foldl (fun t p => Trie.add t p.1 p.2) t) = true ∧
        Trie.noEmptyDescendants (ops.foldl (fun t p => Trie.add t p.1 p.2) t) = true by
    exact (h Trie.empty childrenFull_empty noEmptyDescendants_empty).2
  induction ops with
  | nil => intro t hf hne; exact ⟨hf, hne⟩
  | cons op rest ih =>
    intro t hf hne
    rw [List.foldl_cons]
    exact ih (Trie.add t op.1 op.2) (childrenFull_add op.1 t op.2 hf)
      (noEmptyDescendants_add op.1 t op.2 hf hne)

lemma matches_absent_anag (e : DictIterItem) (n : Nat) (h : e.anag_num = none) :
    WordPredicate.matches (.AnagramOf n) e = false ∧
      WordPredicate.matches (.SubanagramOf n) e = true ∧
      WordPredicate.matches (.SuperanagramOf n) e = true := by
  refine ⟨?_, ?_, ?_⟩ <;> simp [WordPredicate.matches, h]

set_option maxRecDepth 100000 in
/-- C3 counterexample: a dictionary entry whose Anagram Number is absent
(twenty Zs overflow) nevertheless *matches* `WordPredicate::SubanagramOf`
(and `SuperanagramOf`): `matches` uses `map_or(true, ..)` for these two
predicates, so the result is `true`, not `false` as the claim states. -/
theorem C3_absent_anagram_counterexample :
    overflowItem.anag_num = none ∧
      WordPredicate.matches (.SubanagramOf 615) overflowItem = true ∧
      WordPredicate.matches (.SuperanagramOf 615) overflowItem = true := by
  have h : overflowItem.anag_num = none := by decide
  exact ⟨h, (matches_absent_anag overflowItem 615 h).2.1,
    (matches_absent_anag overflowItem 615 h).2.2⟩

set_option maxRecDepth 400000 in
lemma dictZ_search_yields :
    Dictionary.iter_search (Dictionary.insert Dictionary.empty "zzzzzzzzzzzzzzzzzzzz")
      ⟨none, .SubanagramOf 615⟩ = [overflowItem] := by
  rw [Dictionary.iter_search]
  have h1 : (((Dictionary.insert Dictionary.empty "zzzzzzzzzzzzzzzzzzzz").trie.iter_search
      ((none : Option TrieSearch).getD default)).map DictIterItem.ofPair) =
      [overflowItem] := by decide
  rw [h1]
  rw [List.filter_cons]
  have h : overflowItem.anag_num = none := by decide
  rw [if_pos ((matches_absent_anag overflowItem 615 h).2.1 : _)]
  rfl

/-- C3 (amended): an entry with an absent Anagram Number fails `AnagramOf`
(`map_or(false, ..)`) and so is never yielded by an `AnagramOf` search, but
it *passes* `SubanagramOf` and `SuperanagramOf` (`map_or(true, ..)`), so a
search filtered by either of those predicates does yield such an entry when
it matches positionally — concretely, the twenty-Z overflow entry is yielded
by a `SubanagramOf` search over its dictionary. -/
theorem C3_absent_anagram_amended :
    (∀ (e : DictIterItem) (n : Nat), e.anag_num = none →
      WordPredicate.matches (.AnagramOf n) e = false ∧
        WordPredicate.matches (.SubanagramOf n) e = true ∧
        WordPredicate.matches (.SuperanagramOf n) e = true) ∧
    Dictionary.iter_search (Dictionary.insert Dictionary.empty "zzzzzzzzzzzzzzzzzzzz")
      ⟨none, .SubanagramOf 615⟩ = [overflowItem] :=
  ⟨matches_absent_anag, dictZ_search_yields⟩

/-- Witness for the amended C3 at the twenty-Z overflow entry. -/
theorem C3_absent_anagram_amended_witness :
    overflowItem.anag_num = none ∧
      (WordPredicate.matches (.AnagramOf 615) overflowItem = false ∧
        WordPredicate.matches (.SubanagramOf 615) overflowItem = true ∧
        WordPredicate.matches (.SuperanagramOf 615) overflowItem = true) :=
  ⟨by decide, C3_absent_anagram_amended.1 overflowItem 615 (by decide)⟩

/-- C10: the default predicate `WordPredicate::None` matches every entry,
`All []` matches every entry, `Any []` matches none, and a dictionary search
whose predicate is `None` yields exactly the positionally matching entries
unfiltered. -/
theorem C10_default_predicates :
    (∀ e : DictIterItem, WordPredicate.matches .None e = true) ∧
    (∀ e : DictIterItem, WordPredicate.matches (.All []) e = true) ∧
    (∀ e : DictIterItem, WordPredicate.matches (.Any []) e = false) ∧
    (∀ (d : Dictionary) (ts : Option TrieSearch),
      Dictionary.iter_search d ⟨ts, .None⟩ =
        ((d.trie.iter_search (ts.getD default)).map DictIterItem.ofPair)) := by
  refine ⟨?_, ?_, ?_, ?_⟩
  · intro e; simp [WordPredicate.matches]
  · intro e; simp [WordPredicate.matches]
  · intro e; simp [WordPredicate.matches]
  · intro d ts
    rw [Dictionary.iter_search]
    apply List.filter_eq_self.mpr
    intro x _
    simp [WordPredicate.matches]

lemma fromAscii_go_total :
    ∀ (word freqs : List Nat), freqs.length = 26 →
      (∀ c8, 65 ≤ c8 → c8 ≤ 90 → freqs.getD (c8 - 65) 0 + word.count c8 ≤ 255) →
      (word.foldlM
        (fun freqs c8 =>
          if 65 ≤ c8 ∧ c8 ≤ 90 then
            if freqs.getD (c8 - 65) 0 + 1 < 256 then
              some (freqs.set (c8 - 65) (freqs.getD (c8 - 65) 0 + 1))
            else none
          else some freqs) freqs).isSome = true := by
  intro word
  induction word with
  | nil => intro freqs _ _; rfl
  | cons c rest ih =>
    intro freqs hlen hinv
    rw [List.foldlM_cons]
    by_cases hc : 65 ≤ c ∧ c ≤ 90
    · have hcount : freqs.getD (c - 65) 0 + List.count c (c :: rest) ≤ 255 :=
        hinv c hc.1 hc.2
      rw [List.count_cons_self] at hcount
      have hlt : freqs.getD (c - 65) 0 + 1 < 256 := by omega
      rw [if_pos hc, if_pos hlt]
      simp only [Option.bind_eq_bind, Option.some_bind]
      apply ih
      · rw [List.length_set]; exact hlen
      · intro c8 h1 h2
        by_cases heq : c8 = c
        · subst heq
          have hset : (freqs.set (c8 - 65) (freqs.getD (c8 - 65) 0 + 1)).getD (c8 - 65) 0
              = freqs.getD (c8 - 65) 0 + 1 := by
            rw [List.getD_eq_getElem?_getD,
              List.getElem?_set_self (show c8 - 65 < freqs.length by omega)]
            rfl
          rw [hset]
          omega
        · have hne : c - 65 ≠ c8 - 65 := by omega
          have hset : (freqs.set (c - 65) (freqs.getD (c - 65) 0 + 1)).getD (c8 - 65) 0
              = freqs.getD (c8 - 65) 0 := by
            rw [List.getD_eq_getElem?_getD, List.getElem?_set_ne hne,
              ← List.getD_eq_getElem?_getD]
          rw [hset]
          have hr : List.count c8 rest ≤ List.count c8 (c :: rest) := by
            rw [List.count_cons]; omega
          have hi := hinv c8 h1 h2
          omega
    · rw [if_neg hc]
      simp only [Option.bind_eq_bind, Option.some_bind]
      apply ih freqs hlen
      intro c8 h1 h2
      have hr : List.count c8 rest ≤ List.count c8 (c :: rest) := by
        rw [List.count_cons]; omega
      have hi := hinv c8 h1 h2
      omega

lemma fromAscii_total (word : List Nat)
    (h : ∀ c8, 65 ≤ c8 → c8 ≤ 90 → word.count c8 ≤ 255) :
    (CharFreq.fromAscii word).isSome = true := by
  apply fromAscii_go_total word CharFreq.new_empty (by decide)
  intro c8 h1 h2
  have h0 : CharFreq.new_empty.getD (c8 - 65) 0 = 0 := by
    rw [CharFreq.new_empty, List.getD_eq_getElem?_getD, List.getElem?_replicate]
    split <;> rfl
  rw [h0]
  simpa using h c8 h1 h2

set_option maxRecDepth 400000 in
/-- C7 counterexample: frequency-vector construction is *not* panic-free on
every valid input — a word with 256 copies of the same letter overflows the
`u8` counter (the 256th increment of a counter already at 255 panics in
checked arithmetic), while 255 copies still succeed. -/
theorem C7_no_panic_counterexample :
    CharFreq.fromAscii (List.replicate 256 65) = none ∧
      (CharFreq.fromAscii (List.replicate 255 65)).isSome = true := by
  exact ⟨by decide, by decide⟩

/-- C7 (amended): pattern parsing accepts every syntactically valid pattern
character (wildcards and normalisable letters); frequency-vector construction
succeeds on every word whose per-letter counts all fit in a `u8` (at most
255), but can panic beyond that; and Anagram Number construction reports
overflow as an error value (`none`) exactly when the true product reaches
`2^128`, never aborting with a wrapped value. -/
theorem C7_no_panic_amended :
    (∀ ch : Char,
      (ch = ' ' ∨ ch = '.' ∨ ch = '?' ∨ (NormalizedChar.from_char ch).isSome = true) →
        (CharMatch.fromChar ch).isSome = true) ∧
    (∀ word : List Nat, (∀ c8, 65 ≤ c8 → c8 ≤ 90 → word.count c8 ≤ 255) →
      (CharFreq.fromAscii word).isSome = true) ∧
    (∀ w : NormalizedWord,
      AnagramNumber.tryFrom w =
        if 2 ^ 128 ≤ (w.map primeOf).prod then none else some ((w.map primeOf).prod)) := by
  refine ⟨?_, fun word h => fromAscii_total word h, fun w => tryFrom_eq_ite w⟩
  intro ch hch
  rcases hch with h | h | h | h
  · simp [CharMatch.fromChar, h]
  · simp [CharMatch.fromChar, h]
  · simp [CharMatch.fromChar, h]
  · rw [CharMatch.fromChar]
    by_cases hw : ch = ' ' ∨ ch = '.' ∨ ch = '?'
    · rw [if_pos hw]; rfl
    · rw [if_neg hw]
      rcases Option.isSome_iff_exists.mp h with ⟨c, hc⟩
      rw [hc]
      rfl

/-- Witness for the amended C7: the wildcard `?` parses, and a two-letter
word builds its frequency vector. -/
theorem C7_no_panic_amended_witness :
    (CharMatch.fromChar (Char.ofNat 63)).isSome = true ∧
      (CharFreq.fromAscii [65, 66]).isSome = true :=
  ⟨C7_no_panic_amended.1 (Char.ofNat 63) (Or.inr (Or.inr (Or.inl (by decide)))),
    C7_no_panic_amended.2.1 [65, 66]
      (fun c8 _ _ => le_trans (List.count_le_length c8 [65, 66]) (by norm_num))⟩
